import Mathlib

/-!
Verification development for `ana`, a columnar dataflow analysis library.

Shallow embedding of the dataset partitioner (`include/ana/interface/dataset.h`,
`include/vecutils.h`), of the per-row value cache of `term<T>::calculation`
(`ana/calculation.h`), of the counter protocol
(`include/ana/interface/counter.h`), of the selections (`ana/selection.cxx`,
`include/ana/interface/weight.h`), of the registries and the `analyzed` flag of
the analysis (`ana/analysis.h`, `include/ana/interface/analysis.h`), of the
reduction of per-slot results (`ana/delayed.h`, `include/ana/interface/lazy.h`),
of the `Columnar` query (`plugins/ana/Columnar.h`), of the experiments
(`include/ana/interface/aggregation_experiment.h`, `ana/experiment.h`), of
booking from a selection (`include/ana/interface/lazy.h`) and of the
propagation of variations (`include/ana/interface/delayed.h`, `ana/delayed.h`).

Integer conventions (LP64): `unsigned int` is 32 bits wide, `unsigned long long`
and `size_t` are 64 bits wide, `long long` is 64-bit two's complement.  Values
are natural numbers or integers, and an operation that can leave the range of
its type is reduced explicitly.  An operation that fails at run time (a failed
`assert`, a division by zero, `front()` of an empty vector, a null pointer
dereference, a loop that does not end) yields `none`.
-/

namespace vec

/-- The loop of `vec::group` (and, with the same body, of
`partition::group_parts`); `todo` counts the iterations that are left
(`min(n, vec.size()) - i`), `begin` is the loop variable of that name (`end`
equals `begin` at the head of every iteration).  The counters are `size_t`
values bounded by `vec.size()`.  A slice that reaches past the vector yields
`none`. -/
def group_loop {α : Type} (vec : List α) (length : Nat) :
    Nat → Nat → Nat → Option (List (List α))
  | 0, _, _ => some []
  | todo + 1, remain, begin =>
    let end_ := begin + (if remain > 0 then length + 1 else length)
    let remain' := if remain > 0 then remain - 1 else remain
    if end_ > vec.length then none
    else
      (group_loop vec length todo remain' end_).map
        (fun gs => (vec.drop begin).take (end_ - begin) :: gs)

/-- The function `vec::group(vec, n)`.  `n = 0` divides by zero. -/
def group {α : Type} (vec : List α) (n : Nat) : Option (List (List α)) :=
  if n = 0 then none
  else group_loop vec (vec.length / n) (min n vec.length) (vec.length % n) 0

end vec

namespace ana

namespace dataset

/-- Modulus of `unsigned int` arithmetic. -/
def UINT_MOD : Nat := 2 ^ 32

/-- Modulus of `unsigned long long` arithmetic. -/
def ULL_MOD : Nat := 2 ^ 64

/-- Reinterpretation of a 64-bit pattern as a `long long`: the representative
of `x` modulo `2^64` in `[-2^63, 2^63)`. -/
def wrap_ll (x : Int) : Int := (x + 2 ^ 63) % 2 ^ 64 - 2 ^ 63

/-- The struct `range`: thread slot, first entry, last entry + 1. -/
structure range where
  slot : Nat
  begin : Nat
  end_ : Nat
deriving DecidableEq

/-- The struct `partition`: the `fixed` flag and the vector `parts`. -/
structure partition where
  fixed : Bool
  parts : List range
deriving DecidableEq

/-- The method `range::entries`: asserts `end > begin`, returns `end - begin`. -/
def range.entries (r : range) : Option Nat :=
  if r.end_ > r.begin then some (r.end_ - r.begin) else none

/-- The operator `range::operator+`: asserts `this->end == next.begin` and
returns `range(this->slot, this->begin, next.end)`. -/
def range.add (r next : range) : Option range :=
  if r.end_ = next.begin then some ⟨r.slot, r.begin, next.end_⟩ else none

/-- The static method `partition::group_parts(parts, n)`; its loop is the one
of `vec::group`.  `n = 0` divides by zero. -/
def partition.group_parts (parts : List range) (n : Nat) : Option (List (List range)) :=
  if n = 0 then none
  else
    vec.group_loop parts (parts.length / n) (min n parts.length) (parts.length % n) 0

/-- The fold of `std::accumulate` with `operator+` over the tail of a group. -/
def partition.sum_loop : range → List range → Option range
  | acc, [] => some acc
  | acc, next :: rest => (range.add acc next).bind (fun acc' => partition.sum_loop acc' rest)

/-- The static method `partition::sum_parts`: `std::accumulate` from
`parts.front()` over the remaining elements; `front()` of an empty vector is
undefined. -/
def partition.sum_parts : List range → Option range
  | [] => none
  | first :: rest => partition.sum_loop first rest

/-- The `while (remaining)` loop of the constructor `partition(nentries,
max_entries_per_slot)`.  The first argument is fuel: `none` means the loop has
not ended within that many iterations.  `islot` is an `unsigned int`, so
`islot++` wraps at `UINT_MOD`; `begin` and `end` are `unsigned long long`. -/
def partition.ctor_loop (max_entries_per_slot : Nat) : Nat → Nat → Nat → Nat → Option (List range)
  | 0, _, _, _ => none
  | fuel + 1, remaining, begin, islot =>
    if remaining = 0 then some []
    else
      let slot_entries := min remaining max_entries_per_slot
      let end_ := (begin + slot_entries) % ULL_MOD
      (partition.ctor_loop max_entries_per_slot fuel (remaining - slot_entries)
          ((begin + slot_entries) % ULL_MOD) ((islot + 1) % UINT_MOD)).map
        (fun rest => range.mk islot begin end_ :: rest)

/-- The constructor `partition::partition(nentries, max_entries_per_slot)`,
named `ctor` because the structure's own name is taken inside its namespace.
It runs the loop with fuel `nentries + 1`: every iteration with a positive cap
removes at least one entry. -/
def partition.ctor (nentries max_entries_per_slot : Nat) : Option partition :=
  (partition.ctor_loop max_entries_per_slot (nentries + 1) nentries 0 0).map
    (fun ps => partition.mk false ps)

/-- The `for (const auto &group : groups)` loop of `partition::merge`. -/
def partition.merge_loop : List (List range) → Option (List range)
  | [] => some []
  | group :: groups =>
    (partition.sum_parts group).bind
      (fun s => (partition.merge_loop groups).map (fun rest => s :: rest))

/-- The method `partition::merge(max_parts)`. -/
def partition.merge (max_parts : Nat) (p : partition) : Option partition :=
  if p.fixed then some p
  else
    (partition.group_parts p.parts max_parts).bind
      (fun groups => (partition.merge_loop groups).map (fun ps => partition.mk false ps))

/-- The `for (const auto &part : full_parts)` loop of `partition::truncate`;
`max_entries` is a `long long`, `part.begin + max_entries` is computed in
`unsigned long long`, and `max_entries -= part_end` wraps to `long long`. -/
def partition.truncate_loop : Int → List range → List range
  | _, [] => []
  | max_entries, part :: rest =>
    let part_end :=
      if max_entries ≥ 0 then min ((part.begin + max_entries.toNat) % ULL_MOD) part.end_
      else part.end_
    let max_entries' := wrap_ll (max_entries - (part_end : Int))
    range.mk part.slot part.begin part_end ::
      (if max_entries' = 0 then [] else partition.truncate_loop max_entries' rest)

/-- The method `partition::truncate(max_entries)`. -/
def partition.truncate (max_entries : Int) (p : partition) : partition :=
  if p.fixed then p
  else if max_entries < 0 then p
  else partition.mk false (partition.truncate_loop max_entries p.parts)

/-- Sum of `end - begin` over a list of ranges. -/
def total_entries (ps : List range) : Nat :=
  (ps.map (fun r => r.end_ - r.begin)).sum

/-- Entry `e` lies in one of the ranges. -/
def covers (ps : List range) (e : Nat) : Prop :=
  ∃ r ∈ ps, r.begin ≤ e ∧ e < r.end_

/-- Every range begins where the previous one ends. -/
def contiguous (ps : List range) : Prop :=
  List.Chain' (fun a b : range => a.end_ = b.begin) ps

/-- End of the last range of `ps`, or `e` when `ps` is empty. -/
def last_end (e : Nat) : List range → Nat
  | [] => e
  | r :: rs => last_end r.end_ rs

/-- The ranges `ps` start at `e` and each begins where the previous one ends. -/
def chain_from (e : Nat) : List range → Prop
  | [] => True
  | r :: rs => e = r.begin ∧ chain_from r.end_ rs

/-- The range from the begin of the first to the end of the last element of a
group, under the slot of the first. -/
def span : List range → range
  | [] => ⟨0, 0, 0⟩
  | first :: rest => ⟨first.slot, first.begin, last_end first.end_ rest⟩

/-- Size of the `i`-th group when `n` elements are split into `k` groups. -/
def group_size (n k i : Nat) : Nat := n / k + (if i < n % k then 1 else 0)

/-- The range that `partition(E, M)` stores at index `i`: the slot is the index
reduced to `unsigned int`. -/
def nth_range (E M i : Nat) : range := ⟨i % UINT_MOD, i * M, min ((i + 1) * M) E⟩

end dataset

end ana

namespace ana

namespace term

/-- The class `term<T>::calculation`: the cached `m_value` and the flag
`m_updated`.  `n_calculate` is instrumentation: the number of invocations of the
pure virtual `calculate()` made so far through `update()`. -/
structure calculation (T : Type) where
  m_value : T
  m_updated : Bool
  n_calculate : Nat

/-- The constructor: `m_updated(true)`; `m_value` is left as default-initialised
(`init`). -/
def calculation.ctor {T : Type} (init : T) : calculation T := ⟨init, true, 0⟩

/-- The method `update()`: `m_value = this->calculate(); m_updated = true;`.
`calculate` is the value that `calculate()` returns when invoked at this point. -/
def calculation.update {T : Type} (c : calculation T) (calculate : T) : calculation T :=
  ⟨calculate, true, c.n_calculate + 1⟩

/-- The method `reset()`: `m_updated = false`. -/
def calculation.reset {T : Type} (c : calculation T) : calculation T :=
  ⟨c.m_value, false, c.n_calculate⟩

/-- The method `execute()`: `this->reset()`. -/
def calculation.execute {T : Type} (c : calculation T) : calculation T := c.reset

/-- The method `value()`: `if (!m_updated) this->update(); return m_value;`.
Returns the value handed out and the object after the call (the members are
`mutable`). -/
def calculation.value {T : Type} (c : calculation T) (calculate : T) : T × calculation T :=
  let c' := if !c.m_updated then c.update calculate else c
  (c'.m_value, c')

/-- A run of consecutive `value()` calls; the list gives, call by call, what
`calculate()` would return at that moment.  Returns the values handed out and
the object after the last call. -/
def calculation.values {T : Type} : calculation T → List T → List T × calculation T
  | c, [] => ([], c)
  | c, x :: xs =>
    let r := c.value x
    let rs := calculation.values r.2 xs
    (r.1 :: rs.1, rs.2)

end term

/-- The interface of class `selection` as a counter reads it on one row:
the results of `passed_cut()` and `get_weight()`. -/
structure selection_row (W : Type) where
  passed_cut : Bool
  get_weight : W

/-- The class `counter`: `m_raw`, `m_scale` and the pointer `m_selection`
(`none` is `nullptr`, `some a` points at the selection with handle `a`). -/
structure counter (W : Type) where
  m_raw : Bool
  m_scale : W
  m_selection : Option Nat

/-- The constructor: `m_raw(false), m_scale(1.0), m_selection(nullptr)`. -/
def counter.ctor {W : Type} [One W] : counter W := ⟨false, 1, none⟩

/-- The method `set_selection`. -/
def counter.set_selection {W : Type} (c : counter W) (selection : Nat) : counter W :=
  ⟨c.m_raw, c.m_scale, some selection⟩

/-- The method `get_selection`. -/
def counter.get_selection {W : Type} (c : counter W) : Option Nat := c.m_selection

/-- The method `apply_scale`: `m_scale *= scale`. -/
def counter.apply_scale {W : Type} [Mul W] (c : counter W) (scale : W) : counter W :=
  ⟨c.m_raw, c.m_scale * scale, c.m_selection⟩

/-- The method `use_weight`: `m_raw = !use`. -/
def counter.use_weight {W : Type} (c : counter W) (use : Bool) : counter W :=
  ⟨!use, c.m_scale, c.m_selection⟩

/-- The method `counter::execute(part, entry)`.  `count` is the pure virtual
`count(w)` acting on the state `σ` of the derived class, `sel` gives what each
selection shows on the current row.  Dereferencing a null `m_selection` yields
`none`. -/
def counter.execute {σ W : Type} [Mul W] [One W] (count : W → σ → σ)
    (sel : Nat → selection_row W) (c : counter W) (_part : dataset.range) (_entry : Nat)
    (st : σ) : Option σ :=
  match c.m_selection with
  | none => none
  | some a =>
    if (sel a).passed_cut then
      some (count (if c.m_raw then 1 else c.m_scale * (sel a).get_weight) st)
    else some st


/-- Sample input: a counter of integer weights with scale 2, bound to the
selection with handle 0. -/
def sample_counter : counter Int := ⟨false, 2, some 0⟩

/-- Sample input: on this row every selection passes with weight 0. -/
def sample_row_zero : Nat → selection_row Int := fun _ => ⟨true, 0⟩

/-- Sample input: on this row no selection passes. -/
def sample_row_fail : Nat → selection_row Int := fun _ => ⟨false, 5⟩

/-- Sample input: on this row every selection passes with weight 5. -/
def sample_row_five : Nat → selection_row Int := fun _ => ⟨true, 5⟩

/-- Sample input: a `count` that adds the weight to an integer sum. -/
def sample_count : Int → Int → Int := fun w n => n + w

namespace dataset

/-- Sample input: the partition `[0,1), [1,2), [2,3)`. -/
def sample_partition : partition := ⟨false, [⟨0, 0, 1⟩, ⟨1, 1, 2⟩, ⟨2, 2, 3⟩]⟩

/-- Sample input: five unit ranges. -/
def sample_parts : List range := [⟨0, 0, 1⟩, ⟨1, 1, 2⟩, ⟨2, 2, 3⟩, ⟨3, 3, 4⟩, ⟨4, 4, 5⟩]

end dataset

end ana

namespace ana

/-- What the subclass of a `selection` contributes on the current row.
`weight` is the class `selection::weight` with `m_variable.value()` equal to
`decision`; `other` stands for a selection of any other subclass, given by what
its own `passed_cut()` and `get_weight()` return on the row. -/
inductive selection_kind (W : Type) where
  | weight (decision : W) : selection_kind W
  | other (passed_cut : Bool) (get_weight : W) : selection_kind W

/-- The class `selection`: `m_name`, `m_channel`, the pointer `m_preselection`
(`none` is `nullptr`) and the subclass. -/
inductive selection (W : Type) where
  | mk (m_name : String) (m_channel : Bool) (m_preselection : Option (selection W))
      (kind : selection_kind W) : selection W

/-- The method `get_name`. -/
def selection.get_name {W : Type} : selection W → String
  | .mk m_name _ _ _ => m_name

/-- The method `is_channel`. -/
def selection.is_channel {W : Type} : selection W → Bool
  | .mk _ m_channel _ _ => m_channel

/-- The method `get_previous`. -/
def selection.get_previous {W : Type} : selection W → Option (selection W)
  | .mk _ _ m_preselection _ => m_preselection

/-- The method `is_initial`: `m_preselection ? false : true`. -/
def selection.is_initial {W : Type} (s : selection W) : Bool :=
  match s.get_previous with
  | some _ => false
  | none => true

/-- The virtual method `passed_cut()`; for `selection::weight` it is
`m_preselection ? m_preselection->passed_cut() : true`. -/
def selection.passed_cut {W : Type} : selection W → Bool
  | .mk _ _ (some presel) (.weight _) => presel.passed_cut
  | .mk _ _ none (.weight _) => true
  | .mk _ _ _ (.other passed _) => passed

/-- The virtual method `get_weight()`; for `selection::weight` it is
`m_preselection ? m_preselection->get_weight() * m_variable.value()
: m_variable.value()`. -/
def selection.get_weight {W : Type} [Mul W] : selection W → W
  | .mk _ _ (some presel) (.weight decision) => presel.get_weight * decision
  | .mk _ _ none (.weight decision) => decision
  | .mk _ _ _ (.other _ weight) => weight

/-- The static method `selection::concatenate_names(names, delimiter)`. -/
def selection.concatenate_names (names : List String) (delimiter : String) : String :=
  names.foldl (fun joined name => joined ++ name ++ delimiter) ""

/-- The loop `while (presel) { if (presel->is_channel())
channels.push_back(presel->get_name()); presel = presel->get_previous(); }` of
`get_path`, entered with a non-null `presel`. -/
def selection.channels_loop {W : Type} : selection W → List String → List String
  | .mk m_name m_channel none _, channels =>
    if m_channel then channels ++ [m_name] else channels
  | .mk m_name m_channel (some previous) _, channels =>
    previous.channels_loop (if m_channel then channels ++ [m_name] else channels)

/-- The loop `while (presel) { presels.push_back(presel->get_name());
presel = presel->get_previous(); }` of `get_full_path`, entered with a non-null
`presel`. -/
def selection.presels_loop {W : Type} : selection W → List String → List String
  | .mk m_name _ none _, presels => presels ++ [m_name]
  | .mk m_name _ (some previous) _, presels => previous.presels_loop (presels ++ [m_name])

/-- The method `get_path()`. -/
def selection.get_path {W : Type} (s : selection W) : String :=
  let channels :=
    match s.get_previous with
    | some presel => presel.channels_loop []
    | none => []
  selection.concatenate_names channels.reverse "/" ++ s.get_name

/-- The method `get_full_path()`. -/
def selection.get_full_path {W : Type} (s : selection W) : String :=
  let presels :=
    match s.get_previous with
    | some presel => presel.presels_loop []
    | none => []
  selection.concatenate_names presels.reverse "/" ++ s.get_name

/-- The selection itself preceded by its ancestors, root first. -/
def selection.lineage {W : Type} : selection W → List (selection W)
  | .mk m_name m_channel none kind => [.mk m_name m_channel none kind]
  | .mk m_name m_channel (some previous) kind =>
    previous.lineage ++ [.mk m_name m_channel (some previous) kind]

/-- The ancestors of a selection, from the root to its parent. -/
def selection.ancestors {W : Type} (s : selection W) : List (selection W) :=
  match s.get_previous with
  | some presel => presel.lineage
  | none => []

/-- The names in order, each followed by `/`. -/
def selection.slash_join : List String → String
  | [] => ""
  | name :: names => name ++ "/" ++ selection.slash_join names

/-- The chain of `selection::weight` nodes with decisions `d :: ds`, the first
one initial and each next one applied on the one before; the names are
immaterial. -/
def selection.weight_chain {W : Type} (d : W) (ds : List W) : selection W :=
  ds.foldl (fun previous decision => selection.mk "" false (some previous) (.weight decision))
    (selection.mk "" false none (.weight d))

/-- Sample input: the initial filter `A`. -/
def sample_A : selection Int := .mk "A" false none (.other true 1)

/-- Sample input: the channel `B` applied on `A`. -/
def sample_B : selection Int := .mk "B" true (some sample_A) (.other true 1)

/-- Sample input: the filter `C` applied on `B`. -/
def sample_C : selection Int := .mk "C" false (some sample_B) (.other true 1)

/-- Sample input: a weight with decision 3 applied on a selection that passes
with weight 2. -/
def sample_weight : selection Int :=
  .mk "w" false (some (.mk "cut" false none (.other true 2))) (.weight 3)

end ana

namespace ana

/-- A `node<term>` as `add_term` reads it: its `name()`; `handle` tells nodes of
the same name apart. -/
structure term_node where
  name : String
  handle : Nat
deriving DecidableEq

/-- A `node<counter>` as `add_counter` reads it: its `path()`; `handle` tells
nodes of the same path apart. -/
structure counter_node where
  path : String
  handle : Nat
deriving DecidableEq

/-- The class `analysis<T>` of `ana/analysis.h`: the flag `m_analyzed` and the
three registries, each a vector of keys and an `unordered_map` from key to node.
`n_run` is instrumentation: the number of `run_processors()` calls so far. -/
structure analysis (W : Type) where
  m_analyzed : Bool
  m_column_names : List String
  m_column_map : String → Option term_node
  m_selection_paths : List String
  m_selection_map : String → Option (selection W)
  m_counter_paths : List String
  m_counter_map : String → Option counter_node
  n_run : Nat

/-- The constructor: `m_analyzed(false)` and empty registries. -/
def analysis.ctor {W : Type} : analysis W :=
  ⟨false, [], fun _ => none, [], fun _ => none, [], fun _ => none, 0⟩

/-- The assignment `map[key] = node` on an `unordered_map`. -/
def map_assign {ν : Type} (map : String → Option ν) (key : String) (node : ν) :
    String → Option ν :=
  fun k => if k = key then some node else map k

/-- The method `has_term`: `m_column_map.find(name) != m_column_map.end()`. -/
def analysis.has_term {W : Type} (a : analysis W) (name : String) : Bool :=
  (a.m_column_map name).isSome

/-- The method `has_selection`. -/
def analysis.has_selection {W : Type} (a : analysis W) (path : String) : Bool :=
  (a.m_selection_map path).isSome

/-- The method `has_counter`. -/
def analysis.has_counter {W : Type} (a : analysis W) (name : String) : Bool :=
  (a.m_counter_map name).isSome

/-- The method `add_term`.  The result is the analysis after the call and the
message of the `std::logic_error` thrown, if any. -/
def analysis.add_term {W : Type} (a : analysis W) (node : term_node) :
    analysis W × Option String :=
  let name := node.name
  if a.has_term name then (a, some "column already exists")
  else
    (⟨a.m_analyzed, a.m_column_names ++ [name], map_assign a.m_column_map name node,
      a.m_selection_paths, a.m_selection_map, a.m_counter_paths, a.m_counter_map, a.n_run⟩,
      none)

/-- The method `add_selection`; `node.path()` is the path of the selection,
`selection::get_path`. -/
def analysis.add_selection {W : Type} (a : analysis W) (node : selection W) :
    analysis W × Option String :=
  let path := node.get_path
  if a.has_selection path then (a, some "selection already exists")
  else
    (⟨a.m_analyzed, a.m_column_names, a.m_column_map,
      a.m_selection_paths ++ [path], map_assign a.m_selection_map path node,
      a.m_counter_paths, a.m_counter_map, a.n_run⟩, none)

/-- The method `add_counter`. -/
def analysis.add_counter {W : Type} (a : analysis W) (node : counter_node) :
    analysis W × Option String :=
  let path := node.path
  if a.has_counter path then (a, some "counter already exists")
  else
    (⟨a.m_analyzed, a.m_column_names, a.m_column_map, a.m_selection_paths, a.m_selection_map,
      a.m_counter_paths ++ [path], map_assign a.m_counter_map path node, a.n_run⟩, none)

/-- The operator `analysis::operator[](path)`: throws when `has_selection(path)`
is false, else returns `m_selection_map.at(path)`. -/
def analysis.index {W : Type} (a : analysis W) (path : String) :
    Except String (selection W) :=
  if !a.has_selection path then Except.error "selection does not exist"
  else
    match a.m_selection_map path with
    | some node => Except.ok node
    | none => Except.error "out_of_range"

/-- The methods `list_term_names`, `list_selection_paths`, `list_counter_paths`. -/
def analysis.list_term_names {W : Type} (a : analysis W) : List String := a.m_column_names

/-- The method `list_selection_paths`. -/
def analysis.list_selection_paths {W : Type} (a : analysis W) : List String :=
  a.m_selection_paths

/-- The method `list_counter_paths`. -/
def analysis.list_counter_paths {W : Type} (a : analysis W) : List String :=
  a.m_counter_paths

/-- The method `reset`: `m_analyzed = false`. -/
def analysis.reset {W : Type} (a : analysis W) : analysis W :=
  ⟨false, a.m_column_names, a.m_column_map, a.m_selection_paths, a.m_selection_map,
    a.m_counter_paths, a.m_counter_map, a.n_run⟩

/-- The method `clear_counters`: clears `m_counter_paths` and `m_counter_map`. -/
def analysis.clear_counters {W : Type} (a : analysis W) : analysis W :=
  ⟨a.m_analyzed, a.m_column_names, a.m_column_map, a.m_selection_paths, a.m_selection_map,
    [], fun _ => none, a.n_run⟩

/-- The method `run_processors`: one pass over the dataset. -/
def analysis.run_processors {W : Type} (a : analysis W) : analysis W :=
  ⟨a.m_analyzed, a.m_column_names, a.m_column_map, a.m_selection_paths, a.m_selection_map,
    a.m_counter_paths, a.m_counter_map, a.n_run + 1⟩

/-- The method `analyze`: `if (!m_analyzed) { run_processors(); merge_results();
clear_counters(); } m_analyzed = true;`.  `merge_results()` acts on the results
held by the counter nodes, not on the registries. -/
def analysis.analyze {W : Type} (a : analysis W) : analysis W :=
  let a' := if !a.m_analyzed then a.run_processors.clear_counters else a
  ⟨true, a'.m_column_names, a'.m_column_map, a'.m_selection_paths, a'.m_selection_map,
    a'.m_counter_paths, a'.m_counter_map, a'.n_run⟩

/-- The method `book(bookkeeper)`: `reset()`, then the booked counter `nd` is
registered through `add_counter(nd)`. -/
def analysis.book {W : Type} (a : analysis W) (nd : counter_node) :
    analysis W × Option String :=
  a.reset.add_counter nd

/-- One registration call on an analysis. -/
inductive add_call (W : Type) where
  | term (node : term_node) : add_call W
  | selection (node : selection W) : add_call W
  | counter (node : counter_node) : add_call W

/-- The analysis after a registration call, whether it returned or threw. -/
def analysis.after_call {W : Type} (a : analysis W) : add_call W → analysis W
  | .term node => (a.add_term node).1
  | .selection node => (a.add_selection node).1
  | .counter node => (a.add_counter node).1

/-- The analysis after a sequence of registration calls. -/
def analysis.after_calls {W : Type} (a : analysis W) (calls : List (add_call W)) : analysis W :=
  calls.foldl analysis.after_call a

namespace interface

/-- The class `analysis<T>` of `include/ana/interface/analysis.h`: the flag
`m_analyzed` and the vector `m_actions` (actions by handle).  `n_pass` is
instrumentation: the number of dataset passes run by `analyze()` so far. -/
structure analysis where
  m_analyzed : Bool
  m_actions : List Nat
  n_pass : Nat
deriving DecidableEq

/-- The default constructor: `m_analyzed(false)`. -/
def analysis.ctor : analysis := ⟨false, [], 0⟩

/-- The method `analyze`: returns at once when `m_analyzed`; else starts the
dataset, runs `process()` on every slot, finishes the dataset, clears the
counters of the processors and sets `m_analyzed`. -/
def analysis.analyze (a : analysis) : analysis :=
  if a.m_analyzed then a else ⟨true, a.m_actions, a.n_pass + 1⟩

/-- The method `reset`: `m_analyzed = false`. -/
def analysis.reset (a : analysis) : analysis := ⟨false, a.m_actions, a.n_pass⟩

/-- The method `add_action`: `m_actions.emplace_back(action)`. -/
def analysis.add_action (a : analysis) (action : Nat) : analysis :=
  ⟨a.m_analyzed, a.m_actions ++ [action], a.n_pass⟩

/-- The method `book_selection`: `reset()`, then the counter `cnt` booked by the
processors is added as an action. -/
def analysis.book_selection (a : analysis) (cnt : Nat) : analysis :=
  a.reset.add_action cnt

/-- The method `book_selections`: `reset()`, then every counter booked by the
processors (`cnts`, one per selection path) is added as an action. -/
def analysis.book_selections (a : analysis) (cnts : List Nat) : analysis :=
  cnts.foldl analysis.add_action a.reset

end interface

end ana

namespace ana

/-- The analysis after `add_selection` was called on each node in turn, from
the analysis `a`. -/
def analysis.add_selections {W : Type} (a : analysis W) (nodes : List (selection W)) :
    analysis W :=
  nodes.foldl (fun a node => (a.add_selection node).1) a

/-- Sample input: the initial filter `D`. -/
def sample_D : selection Int := .mk "D" false none (.other true 1)

/-- Sample input: the filter `C` applied on the filter `A`. -/
def sample_CA : selection Int := .mk "C" false (some sample_A) (.other true 1)

/-- Sample input: the filter `C` applied on the filter `D`. -/
def sample_CD : selection Int := .mk "C" false (some sample_D) (.other true 1)

/-- Sample input: the analysis after the filters `A`, `D` and `C` on `A` were
added. -/
def sample_analysis : analysis Int :=
  (analysis.ctor : analysis Int).add_selections [sample_A, sample_D, sample_CA]

end ana

namespace ana

namespace delayed

/-- Modelled from the spec: one slot of a counter node of `ana/delayed.h`.  The
counter methods `result()`, `merge(r)`, `is_merged()` and `set_merged(b)` are
not part of the sources at hand; `result()` hands out the state `m_state`,
`merge(r)` folds `r` into it with the merge operation of the query, and the
other two read and write `m_merged`.  `n_given` is instrumentation: how often
the result of this slot was handed to `merge` of the model. -/
structure slot (R : Type) where
  m_state : R
  m_merged : Bool
  n_given : Nat
deriving DecidableEq

/-- The loop `for (islot = 1; islot < concurrency(); ++islot)` of
`merge_results`: `if (!slot->is_merged()) model->merge(slot->result());
slot->set_merged(true);`.  Takes the state of the model and the slots from 1 on,
returns both after the loop. -/
def merge_loop {R : Type} (merge : R → R → R) : R → List (slot R) → R × List (slot R)
  | model, [] => (model, [])
  | model, s :: rest =>
    let model' := if !s.m_merged then merge model s.m_state else model
    let s' : slot R := ⟨s.m_state, true, if !s.m_merged then s.n_given + 1 else s.n_given⟩
    let r := merge_loop merge model' rest
    (r.1, s' :: r.2)

/-- The method `merge_results` of `delayed<U>`; `model()` of a node without
slots is undefined. -/
def merge_results {R : Type} (merge : R → R → R) : List (slot R) → Option (List (slot R))
  | [] => none
  | model :: others =>
    let r := merge_loop merge model.m_state others
    some (⟨r.1, model.m_merged, model.n_given⟩ :: r.2)

/-- The method `result()` of `delayed<U>`: `m_analysis->analyze();
merge_results(); return model()->result();`.  `process` is what a dataset pass
does to the slots of this node; it is applied when `analyze()` runs the pass.
Returns the value, the analysis and the slots after the call. -/
def result {R W : Type} (merge : R → R → R) (process : List (slot R) → List (slot R))
    (a : analysis W) (slots : List (slot R)) : Option (R × analysis W × List (slot R)) :=
  let slots1 := if a.m_analyzed then slots else process slots
  match merge_results merge slots1 with
  | none => none
  | some [] => none
  | some (model :: others) => some (model.m_state, a.analyze, model :: others)

/-- A run of `k` consecutive `result()` calls: the values returned, and the
analysis and the slots after the last call. -/
def results {R W : Type} (merge : R → R → R) (process : List (slot R) → List (slot R)) :
    Nat → analysis W → List (slot R) → Option (List R × analysis W × List (slot R))
  | 0, a, slots => some ([], a, slots)
  | k + 1, a, slots =>
    match result merge process a slots with
    | none => none
    | some (v, a', slots') =>
      match results merge process k a' slots' with
      | none => none
      | some (vs, a'', slots'') => some (v :: vs, a'', slots'')

/-- The state of the model after the results of the slots not yet merged were
folded in, in slot order. -/
def folded {R : Type} (merge : R → R → R) (model : R) (others : List (slot R)) : R :=
  others.foldl (fun m s => if s.m_merged then m else merge m s.m_state) model

/-- A slot after `merge_results` has passed it. -/
def marked {R : Type} (s : slot R) : slot R :=
  ⟨s.m_state, true, if s.m_merged then s.n_given else s.n_given + 1⟩

end delayed

namespace lazy

/-- Modelled from the spec: one slot of a counter node of `interface/lazy.h`.
The counter methods `get_result()`, `is_merged()` and
`set_merged_result(results)` are not part of the sources at hand;
`get_result()` hands out `m_result`, and `set_merged_result(results)` stores the
result of the query's `merge(results)` there and sets `m_merged`.  `n_merge` is
instrumentation: the number of `set_merged_result` calls on this slot. -/
structure slot (R : Type) where
  m_result : R
  m_merged : Bool
  n_merge : Nat
deriving DecidableEq

/-- Modelled from the spec: the method `get_result()`. -/
def slot.get_result {R : Type} (s : slot R) : R := s.m_result

/-- Modelled from the spec: the method `set_merged_result(results)`, with the
query's `merge` as a parameter. -/
def slot.set_merged_result {R : Type} (merge : List R → R) (s : slot R) (results : List R) :
    slot R :=
  ⟨merge results, true, s.n_merge + 1⟩

/-- The method `concurrency()`: `m_slots.size()` returned as `unsigned int`. -/
def concurrency {R : Type} (slots : List (slot R)) : Nat := slots.length % dataset.UINT_MOD

/-- The method `merge_results` of `lazy<Action>`; `get_slot(0)` of a node
without slots is undefined.  The loop collects `get_result()` of the slots
`0, ..., nslots - 1`. -/
def merge_results {R : Type} (merge : List R → R) : List (slot R) → Option (List (slot R))
  | [] => none
  | model :: others =>
    let nslots := concurrency (model :: others)
    if nslots > 1 && !model.m_merged then
      let results := ((model :: others).take nslots).map slot.get_result
      some (model.set_merged_result merge results :: others)
    else some (model :: others)

/-- The method `result()` of `lazy<Action>`: `m_df->analyze(); merge_results();
return get_slot(0)->get_result();`.  `process` is what a dataset pass does to
the slots of this node; it is applied when `analyze()` runs the pass.  Returns
the value, the analysis and the slots after the call. -/
def result {R : Type} (merge : List R → R) (process : List (slot R) → List (slot R))
    (df : interface.analysis) (slots : List (slot R)) :
    Option (R × interface.analysis × List (slot R)) :=
  let slots1 := if df.m_analyzed then slots else process slots
  match merge_results merge slots1 with
  | none => none
  | some [] => none
  | some (model :: others) => some (model.get_result, df.analyze, model :: others)

/-- A run of `k` consecutive `result()` calls: the values returned, and the
analysis and the slots after the last call. -/
def results {R : Type} (merge : List R → R) (process : List (slot R) → List (slot R)) :
    Nat → interface.analysis → List (slot R) →
      Option (List R × interface.analysis × List (slot R))
  | 0, df, slots => some ([], df, slots)
  | k + 1, df, slots =>
    match result merge process df slots with
    | none => none
    | some (v, df', slots') =>
      match results merge process k df' slots' with
      | none => none
      | some (vs, df'', slots'') => some (v :: vs, df'', slots'')

end lazy

/-- Sample input: three slots of a `delayed` counter node holding 1, 10 and
100, none merged. -/
def sample_delayed_slots : List (delayed.slot Nat) :=
  [⟨1, false, 0⟩, ⟨10, false, 0⟩, ⟨100, false, 0⟩]

/-- Sample input: three slots of a `lazy` counter node holding 1, 10 and 100,
none merged. -/
def sample_lazy_slots : List (lazy.slot Nat) :=
  [⟨1, false, 0⟩, ⟨10, false, 0⟩, ⟨100, false, 0⟩]

end ana

/-- The class `Columnar<T>` of `plugins/ana/Columnar.h`: the vector `m_result`. -/
structure Columnar (T : Type) where
  m_result : List T
deriving DecidableEq

/-- The method `fill(x, w)`: `m_result.push_back(x.value())`; `x` is the value
of the observable on the row, `w` the weight. -/
def Columnar.fill {T W : Type} (c : Columnar T) (x : T) (_w : W) : Columnar T :=
  ⟨c.m_result ++ [x]⟩

/-- The method `result()`. -/
def Columnar.result {T : Type} (c : Columnar T) : List T := c.m_result

/-- The method `merge(results)`: every result in turn is inserted at the end of
`merged`. -/
def Columnar.merge {T : Type} (results : List (List T)) : List T :=
  results.foldl (fun merged result => merged ++ result) []

/-- A run of `fill` calls, one per pair of observed value and weight. -/
def Columnar.fills {T W : Type} (c : Columnar T) (rows : List (T × W)) : Columnar T :=
  rows.foldl (fun c row => c.fill row.1 row.2) c

/-- Sample input: the values 0..99 held by four slots, 25 each. -/
def sample_pieces : List (List Nat) :=
  [List.range' 0 25, List.range' 25 25, List.range' 50 25, List.range' 75 25]

namespace ana

/-- The counter nodes that `merge_results()` of `ana/analysis.h` visits: the
entries of `m_counter_map`.  The `unordered_map` is visited in an unspecified
order; they are listed here in the order of `m_counter_paths`, which holds the
keys of the map. -/
def analysis.merge_results {W : Type} (a : analysis W) : List counter_node :=
  a.m_counter_paths.filterMap a.m_counter_map

/-- The counter nodes merged by a call of `analyze()`: those that
`merge_results()` visits when the pass is run, none when `m_analyzed` is set. -/
def analysis.merged_by_analyze {W : Type} (a : analysis W) : List counter_node :=
  if !a.m_analyzed then a.run_processors.merge_results else []

/-- Sample input: an analysis with the column `x`, the selection `A` and the
counter `c` booked. -/
def sample_booked : analysis Int :=
  ((((analysis.ctor : analysis Int).add_term ⟨"x", 0⟩).1.add_selection sample_A).1.book
    ⟨"c", 1⟩).1

/-- An aggregation object behind a `unique_ptr` or `shared_ptr`: its address and
its state. -/
structure booked (W : Type) where
  address : Nat
  object : counter W

namespace aggregation

/-- The class `aggregation::experiment` of `interface/aggregation_experiment.h`:
the vector `m_aggregations` of pointers and the constant `m_norm`. -/
structure experiment (W : Type) where
  m_aggregations : List Nat
  m_norm : W

/-- The constructor `experiment(norm)`. -/
def experiment.ctor {W : Type} (norm : W) : experiment W := ⟨[], norm⟩

/-- The method `add_aggregation`: `m_aggregations.push_back(&cnt)`. -/
def experiment.add_aggregation {W : Type} (e : experiment W) (cnt : Nat) : experiment W :=
  ⟨e.m_aggregations ++ [cnt], e.m_norm⟩

/-- The method `clear_aggregations`. -/
def experiment.clear_aggregations {W : Type} (e : experiment W) : experiment W :=
  ⟨[], e.m_norm⟩

/-- The method `select_aggregation(bkr, sel)`; `cnt` is the aggregation that
`bkr.select_aggregation(sel)` returns.  Then `cnt->apply_scale(m_norm);
this->add_aggregation(*cnt); return cnt;`. -/
def experiment.select_aggregation {W : Type} [Mul W] (e : experiment W) (cnt : booked W) :
    booked W × experiment W :=
  let cnt' : booked W := ⟨cnt.address, cnt.object.apply_scale e.m_norm⟩
  (cnt', e.add_aggregation cnt'.address)

/-- The method `select_aggregations(bkr, sels...)`; `bkpr_and_cntrs` is the pair
that `bkr.select_aggregations(sels...)` returns.  Then
`for (auto const &cntr : bkpr_and_cntrs.second) this->add_aggregation(*cntr);`
and the pair is returned. -/
def experiment.select_aggregations {W β : Type} (e : experiment W)
    (bkpr_and_cntrs : β × List (booked W)) : (β × List (booked W)) × experiment W :=
  (bkpr_and_cntrs,
    bkpr_and_cntrs.2.foldl (fun e cntr => e.add_aggregation cntr.address) e)

end aggregation

/-- The class `counter::experiment` of `ana/experiment.h`: the vector
`m_counters` of pointers and the constant `m_norm`. -/
structure counter.experiment (W : Type) where
  m_counters : List Nat
  m_norm : W

/-- The method `add_counter`: `m_counters.push_back(&cnt)`. -/
def counter.experiment.add_counter {W : Type} (e : counter.experiment W) (cnt : Nat) :
    counter.experiment W :=
  ⟨e.m_counters ++ [cnt], e.m_norm⟩

/-- The method `book_selection(bkr, sel)`; `cnt` is the counter that
`bkr.book_selection(sel)` returns.  Then `cnt->apply_scale(m_norm);
this->add_counter(*cnt); return cnt;`. -/
def counter.experiment.book_selection {W : Type} [Mul W] (e : counter.experiment W)
    (cnt : booked W) : booked W × counter.experiment W :=
  let cnt' : booked W := ⟨cnt.address, cnt.object.apply_scale e.m_norm⟩
  (cnt', e.add_counter cnt'.address)

/-- The loop of `book_selections` over `bkr2->list_selection_paths()`:
`cnt = bkr2->get_counter(sel_path); cnt->apply_scale(m_norm);
this->add_counter(*cnt);`.  The counters of the booker are given one per
selection path. -/
def counter.experiment.book_loop {W : Type} [Mul W] :
    counter.experiment W → List (booked W) → List (booked W) × counter.experiment W
  | e, [] => ([], e)
  | e, cnt :: rest =>
    let cnt' : booked W := ⟨cnt.address, cnt.object.apply_scale e.m_norm⟩
    let r := counter.experiment.book_loop (e.add_counter cnt'.address) rest
    (cnt' :: r.1, r.2)

/-- The method `book_selections(bkr, sels...)`; `bkr2` holds the counters of the
booker that `bkr.book_selections(sels...)` returns. -/
def counter.experiment.book_selections {W : Type} [Mul W] (e : counter.experiment W)
    (bkr2 : List (booked W)) : List (booked W) × counter.experiment W :=
  counter.experiment.book_loop e bkr2

/-- Sample input: two counters with scale 1 as a booker returns them, at the
addresses 10 and 11. -/
def sample_fresh : List (booked Int) :=
  [⟨10, (counter.ctor : counter Int).set_selection 0⟩,
    ⟨11, (counter.ctor : counter Int).set_selection 1⟩]

namespace lazy

/-- The fold `(aggs.book(*this), ...)` over the comma operator: the bookings are
made from left to right and the value is that of the last one.  `book` is
`agg.book(*this)`: it returns the booked node and the dataflow after the
booking. -/
def comma_fold {α ρ σ : Type} (book : α → σ → ρ × σ) : α → List α → σ → ρ × σ
  | agg, [], df => book agg df
  | agg, next :: rest, df => comma_fold book next rest (book agg df).2

/-- The method `book(Agg &&agg)` of `lazy<Action>`: `return agg.book(*this);`. -/
def book_one {α ρ σ : Type} (book : α → σ → ρ × σ) (agg : α) (df : σ) : ρ × σ :=
  book agg df

/-- The method `book(Aggs &&...aggs)` of `lazy<Action>`:
`return std::make_tuple((aggs.book(*this), ...));`.  The tuple is given as the
list of its entries; an empty pack does not compile. -/
def book {α ρ σ : Type} (book : α → σ → ρ × σ) (aggs : List α) (df : σ) :
    Option (List ρ × σ) :=
  match aggs with
  | [] => none
  | agg :: rest =>
    let r := comma_fold book agg rest df
    some ([r.1], r.2)

/-- Modelled from the spec: the class `lazy<T>::varied` (`lazy_varied.h` is not
part of the sources at hand), a nominal node and a mapping from variation name
to node. -/
structure varied (α : Type) where
  m_nominal : α
  m_variation_map : String → Option α
  m_variation_names : Finset String

/-- Modelled from the spec: the constructor `varied(nom)`, without
variations. -/
def varied.ctor {α : Type} (nom : α) : varied α := ⟨nom, fun _ => none, ∅⟩

/-- Modelled from the spec: the method `set_variation(var_name, var)` of
`varied`. -/
def varied.set_variation {α : Type} (v : varied α) (var_name : String) (var : α) : varied α :=
  ⟨v.m_nominal, map_assign v.m_variation_map var_name var, insert var_name v.m_variation_names⟩

/-- Modelled from the spec: the method `nominal()` of `varied`. -/
def varied.nominal {α : Type} (v : varied α) : α := v.m_nominal

/-- Modelled from the spec: the method `variation(var_name)` of `varied`, with
fallback to the nominal. -/
def varied.variation {α : Type} (v : varied α) (var_name : String) : α :=
  match v.m_variation_map var_name with
  | some var => var
  | none => v.m_nominal

/-- Modelled from the spec: the method `has_variation(var_name)` of `varied`. -/
def varied.has_variation {α : Type} (v : varied α) (var_name : String) : Bool :=
  decide (var_name ∈ v.m_variation_names)

/-- Modelled from the spec: the method `list_variation_names()` of `varied`. -/
def varied.list_variation_names {α : Type} (v : varied α) : Finset String :=
  v.m_variation_names

end lazy

namespace systematic

/-- An argument node seen through `systematic::resolver`: a nominal-only node
(`lazy<T>` or `delayed<T>`) or a varied node. -/
inductive resolver (α : Type) where
  | nominal_only (node : α) : resolver α
  | varied (v : lazy.varied α) : resolver α

/-- The method `nominal()`: a `lazy` or `delayed` node returns itself. -/
def resolver.nominal {α : Type} : resolver α → α
  | .nominal_only node => node
  | .varied v => v.nominal

/-- The method `variation(var_name)`: a `lazy` or `delayed` node returns
itself. -/
def resolver.variation {α : Type} : resolver α → String → α
  | .nominal_only node, _ => node
  | .varied v, var_name => v.variation var_name

/-- The method `has_variation(var_name)`: always false on a `lazy` or `delayed`
node. -/
def resolver.has_variation {α : Type} : resolver α → String → Bool
  | .nominal_only _, _ => false
  | .varied v, var_name => v.has_variation var_name

/-- The method `list_variation_names()`: the empty set on a `lazy` or `delayed`
node. -/
def resolver.list_variation_names {α : Type} : resolver α → Finset String
  | .nominal_only _ => ∅
  | .varied v => v.list_variation_names

end systematic

/-- The function `list_all_variation_names(nodes...)`:
`(variation_names.merge(nodes.list_variation_names()), ...)` from the empty
set. -/
def list_all_variation_names {α : Type} (nodes : List (systematic.resolver α)) :
    Finset String :=
  nodes.foldl (fun variation_names node => variation_names ∪ node.list_variation_names) ∅

/-- The method `evaluate_column(columns...)` of `delayed` for at least one
varied argument (`interface/delayed.h` and, with the same body,
`ana/delayed.h`).  `evaluate` is `m_df->evaluate_column(*this, ...)` on
nominal-only arguments; the loop visits the `std::set` of names in ascending
order. -/
def evaluate_column {α β : Type} (evaluate : List α → β)
    (columns : List (systematic.resolver α)) : lazy.varied β :=
  let nom := evaluate (columns.map systematic.resolver.nominal)
  let syst := lazy.varied.ctor nom
  ((list_all_variation_names columns).sort (fun a b => a ≤ b)).foldl
    (fun syst var_name =>
      syst.set_variation var_name (evaluate (columns.map (fun c => c.variation var_name))))
    syst

end ana

namespace ana

namespace dataset

theorem ceil_div_small (r M : Nat) (h0 : 0 < r) (h : r ≤ M) : (r + M - 1) / M = 1 := by
  have hM : 0 < M := by omega
  apply Nat.div_eq_of_lt_le <;> omega

theorem ceil_div_step (r M : Nat) (hM : 0 < M) (h : M ≤ r) :
    (r + M - 1) / M = (r - M + M - 1) / M + 1 := by
  have : r + M - 1 = (r - M + M - 1) + M := by omega
  rw [this, Nat.add_div_right _ hM]

theorem ctor_loop_spec (M : Nat) (hM : 1 ≤ M) :
    ∀ (fuel remaining begin islot : Nat), remaining < fuel → begin + remaining < ULL_MOD →
      islot < UINT_MOD →
      partition.ctor_loop M fuel remaining begin islot =
        some ((List.range ((remaining + M - 1) / M)).map
          (fun j => range.mk ((islot + j) % UINT_MOD) (begin + j * M)
            (min (begin + (j + 1) * M) (begin + remaining)))) := by
  intro fuel
  induction fuel with
  | zero => intro remaining begin islot h; omega
  | succ fuel ih =>
    intro remaining begin islot hf hb hi
    unfold partition.ctor_loop
    by_cases h0 : remaining = 0
    · subst h0
      have : (M - 1) / M = 0 := Nat.div_eq_of_lt (by omega)
      simp [this]
    · simp only [h0, if_false]
      have hs1 : 1 ≤ min remaining M := by omega
      have hs2 : min remaining M ≤ remaining := Nat.min_le_left _ _
      have hmod : (begin + min remaining M) % ULL_MOD = begin + min remaining M :=
        Nat.mod_eq_of_lt (by omega)
      rw [hmod, ih (remaining - min remaining M) (begin + min remaining M) ((islot + 1) % UINT_MOD)
        (by omega) (by omega) (Nat.mod_lt _ (by unfold UINT_MOD; positivity))]
      simp only [Option.map_some']
      congr 1
      by_cases hle : remaining ≤ M
      · have hmin : min remaining M = remaining := Nat.min_eq_left hle
        rw [hmin, ceil_div_small remaining M (by omega) hle]
        have : (remaining - remaining + M - 1) / M = 0 := Nat.div_eq_of_lt (by omega)
        rw [this]
        have hr : List.range 1 = [0] := rfl
        rw [hr]
        simp only [List.map_cons, List.map_nil, Nat.add_zero, Nat.zero_mul,
          Nat.zero_add, Nat.one_mul, Nat.mod_eq_of_lt hi]
        congr 2
        omega
      · have hmin : min remaining M = M := Nat.min_eq_right (by omega)
        rw [hmin, ceil_div_step remaining M (by omega) (by omega), List.range_succ_eq_map]
        simp only [List.map_cons, List.map_map]
        congr 1
        · simp [Nat.mod_eq_of_lt hi]
          omega
        · apply List.map_congr_left
          intro j _
          simp only [Function.comp]
          have e1 : ((islot + 1) % UINT_MOD + j) % UINT_MOD = (islot + (j + 1)) % UINT_MOD := by
            rw [Nat.add_mod, Nat.mod_mod, ← Nat.add_mod]; congr 1; omega
          have e2 : begin + M + j * M = begin + (j + 1) * M := by ring
          have e3 : begin + M + (j + 1) * M = begin + (j + 1 + 1) * M := by ring
          have e4 : begin + M + (remaining - M) = begin + remaining := by omega
          rw [e1, e2, e3, e4]

/-- The constructor returns, for `M ≥ 1`, the `ceil(E / M)` ranges
`(i mod 2^32, i * M, min((i + 1) * M, E))`. -/
theorem ctor_eq (E M : Nat) (hM : 1 ≤ M) (hE : E < ULL_MOD) :
    partition.ctor E M =
      some ⟨false, (List.range ((E + M - 1) / M)).map (nth_range E M)⟩ := by
  unfold partition.ctor
  rw [ctor_loop_spec M hM (E + 1) E 0 0 (by omega) (by omega) (by unfold UINT_MOD; positivity)]
  simp only [Option.map_some']
  congr 2
  apply List.map_congr_left
  intro j _
  simp [nth_range]

theorem group_loop_spec {α : Type} (parts : List α) (length : Nat) :
    ∀ (todo remain begin : Nat),
      begin + todo * length + min todo remain ≤ parts.length →
      ∃ gs, vec.group_loop parts length todo remain begin = some gs ∧
        gs.length = todo ∧
        gs.flatten = (parts.drop begin).take (todo * length + min todo remain) ∧
        ∀ i, i < todo →
          (gs[i]?).map List.length = some (length + (if i < remain then 1 else 0)) := by
  intro todo
  induction todo with
  | zero =>
    intro remain begin _
    exact ⟨[], rfl, rfl, by simp, fun i hi => absurd hi (Nat.not_lt_zero i)⟩
  | succ todo ih =>
    intro remain begin hlen
    have hmul : (todo + 1) * length = todo * length + length := Nat.succ_mul todo length
    unfold vec.group_loop
    by_cases hr : remain > 0
    · simp only [hr, if_true]
      have hend : ¬ begin + (length + 1) > parts.length := by
        rw [hmul] at hlen
        have : 1 ≤ min (todo + 1) remain := by omega
        omega
      obtain ⟨gs, hgs, hl, hj, hs⟩ := ih (remain - 1) (begin + (length + 1)) (by
        rw [hmul] at hlen
        have : min (todo + 1) remain = min todo (remain - 1) + 1 := by omega
        omega)
      simp only [hend, if_false, hgs, Option.map_some']
      refine ⟨_, rfl, by simp [hl], ?_, ?_⟩
      · rw [List.flatten_cons, hj, Nat.add_sub_cancel_left, ← List.drop_drop, ← List.take_add]
        congr 1
        rw [hmul]
        omega
      · intro i hi
        cases i with
        | zero =>
          simp only [List.getElem?_cons_zero, Option.map_some', Nat.add_sub_cancel_left,
            List.length_take, List.length_drop, hr, if_true]
          congr 1
          omega
        | succ i =>
          simp only [List.getElem?_cons_succ]
          rw [hs i (by omega)]
          congr 2
          by_cases hir : i < remain - 1
          · have : i + 1 < remain := by omega
            simp [hir, this]
          · have : ¬ i + 1 < remain := by omega
            simp [hir, this]
    · have hr0 : remain = 0 := by omega
      subst hr0
      simp only [gt_iff_lt, Nat.lt_irrefl, if_false]
      have hend : ¬ begin + length > parts.length := by
        rw [hmul] at hlen
        omega
      obtain ⟨gs, hgs, hl, hj, hs⟩ := ih 0 (begin + length) (by
        rw [hmul] at hlen
        simp only [Nat.min_zero] at hlen ⊢
        omega)
      simp only [hend, if_false, hgs, Option.map_some']
      refine ⟨_, rfl, by simp [hl], ?_, ?_⟩
      · rw [List.flatten_cons, hj, Nat.add_sub_cancel_left, ← List.drop_drop, ← List.take_add]
        congr 1
        rw [hmul]
        simp only [Nat.min_zero]
        omega
      · intro i hi
        cases i with
        | zero =>
          simp only [List.getElem?_cons_zero, Option.map_some', Nat.add_sub_cancel_left,
            List.length_take, List.length_drop, Nat.not_lt_zero, if_false]
          congr 1
          omega
        | succ i =>
          simp only [List.getElem?_cons_succ]
          rw [hs i (by omega)]
          simp

/-- For `k ≥ 1`, `group_parts` returns `min(k, n)` consecutive groups that
concatenate to `parts`, with sizes given by `group_size`. -/
theorem group_parts_spec (parts : List range) (k : Nat) (hk : 1 ≤ k) :
    ∃ gs, partition.group_parts parts k = some gs ∧
      gs.length = min k parts.length ∧
      gs.flatten = parts ∧
      ∀ i, i < min k parts.length →
        (gs[i]?).map List.length = some (group_size parts.length k i) := by
  unfold partition.group_parts
  have hk0 : ¬ k = 0 := by omega
  simp only [hk0, if_false]
  have hdm := Nat.div_add_mod parts.length k
  have hmodlt : parts.length % k < k := Nat.mod_lt _ (by omega)
  have htot : min k parts.length * (parts.length / k) + min (min k parts.length) (parts.length % k)
      = parts.length := by
    by_cases hle : k ≤ parts.length
    · rw [Nat.min_eq_left hle, Nat.min_eq_right (by omega)]
      exact hdm
    · have hlt : parts.length < k := by omega
      rw [Nat.div_eq_of_lt hlt, Nat.mod_eq_of_lt hlt, Nat.min_eq_right (by omega)]
      simp
  obtain ⟨gs, hgs, hl, hj, hs⟩ := group_loop_spec parts (parts.length / k)
    (min k parts.length) (parts.length % k) 0 (by omega)
  refine ⟨gs, hgs, hl, ?_, ?_⟩
  · rw [hj, htot]; simp
  · intro i hi
    rw [hs i hi]
    rfl

theorem last_end_append (l₁ l₂ : List range) :
    ∀ e, last_end e (l₁ ++ l₂) = last_end (last_end e l₁) l₂ := by
  induction l₁ with
  | nil => intro e; rfl
  | cons r rs ih => intro e; exact ih r.end_

theorem chain_from_append (l₁ l₂ : List range) :
    ∀ e, chain_from e (l₁ ++ l₂) ↔ chain_from e l₁ ∧ chain_from (last_end e l₁) l₂ := by
  induction l₁ with
  | nil => intro e; simp [chain_from, last_end]
  | cons r rs ih => intro e; simp [chain_from, last_end, ih r.end_, and_assoc]

theorem chain_from_iff_contiguous (a : range) (rest : List range) :
    ∀ e, chain_from e (a :: rest) ↔ e = a.begin ∧ contiguous (a :: rest) := by
  induction rest generalizing a with
  | nil => intro e; simp [chain_from, contiguous]
  | cons b rest ih =>
    intro e
    have h := ih b a.end_
    simp only [chain_from] at h ⊢
    rw [h]
    simp [contiguous, List.chain'_cons]

theorem last_end_eq_getLast (ps : List range) (hne : ps ≠ []) :
    ∀ e, ps.getLast?.map range.end_ = some (last_end e ps) := by
  induction ps with
  | nil => exact absurd rfl hne
  | cons a rest ih =>
    intro e
    cases rest with
    | nil => rfl
    | cons b rest =>
      rw [List.getLast?_cons_cons]
      exact ih (List.cons_ne_nil _ _) a.end_

theorem le_last_end (ps : List range) (hpos : ∀ r ∈ ps, r.begin < r.end_) :
    ∀ e, chain_from e ps → e ≤ last_end e ps := by
  induction ps with
  | nil => intro e _; exact Nat.le_refl e
  | cons r rs ih =>
    intro e h
    have h1 := hpos r (List.mem_cons_self _ _)
    have h2 := ih (fun x hx => hpos x (List.mem_cons_of_mem _ hx)) r.end_ h.2
    have h3 : e = r.begin := h.1
    show e ≤ last_end r.end_ rs
    omega

theorem covers_chain (ps : List range) (hpos : ∀ r ∈ ps, r.begin < r.end_) :
    ∀ e, chain_from e ps → ∀ x, covers ps x ↔ e ≤ x ∧ x < last_end e ps := by
  induction ps with
  | nil => intro e _ x; simp [covers, last_end]
  | cons r rs ih =>
    intro e h x
    have hpos' : ∀ y ∈ rs, y.begin < y.end_ := fun y hy => hpos y (List.mem_cons_of_mem _ hy)
    have h1 := hpos r (List.mem_cons_self _ _)
    have h2 := le_last_end rs hpos' r.end_ h.2
    have h3 : e = r.begin := h.1
    have h4 := ih hpos' r.end_ h.2 x
    unfold covers at h4 ⊢
    simp only [List.mem_cons, exists_eq_or_imp, h4]
    show _ ↔ e ≤ x ∧ x < last_end r.end_ rs
    omega

theorem pairwise_chain (ps : List range) (hpos : ∀ r ∈ ps, r.begin < r.end_) :
    ∀ e, chain_from e ps →
      List.Pairwise (fun a b : range => a.end_ ≤ b.begin) ps ∧ ∀ r ∈ ps, e ≤ r.begin := by
  induction ps with
  | nil => intro e _; simp
  | cons r rs ih =>
    intro e h
    have hpos' : ∀ y ∈ rs, y.begin < y.end_ := fun y hy => hpos y (List.mem_cons_of_mem _ hy)
    have h1 := hpos r (List.mem_cons_self _ _)
    have h3 : e = r.begin := h.1
    obtain ⟨hp, hb⟩ := ih hpos' r.end_ h.2
    refine ⟨List.pairwise_cons.mpr ⟨hb, hp⟩, ?_⟩
    intro y hy
    rcases List.mem_cons.mp hy with rfl | hy
    · omega
    · have := hb y hy
      omega

theorem sum_loop_spec (rest : List range) :
    ∀ acc, chain_from acc.end_ rest →
      partition.sum_loop acc rest = some ⟨acc.slot, acc.begin, last_end acc.end_ rest⟩ := by
  induction rest with
  | nil => intro acc _; rfl
  | cons next rest ih =>
    intro acc h
    have h1 : acc.end_ = next.begin := h.1
    unfold partition.sum_loop
    simp only [range.add, h1, if_true, Option.some_bind]
    exact ih ⟨acc.slot, acc.begin, next.end_⟩ h.2

theorem sum_parts_spec (g : List range) (hne : g ≠ []) (hc : contiguous g) :
    partition.sum_parts g = some (span g) := by
  cases g with
  | nil => exact absurd rfl hne
  | cons first rest =>
    have := (chain_from_iff_contiguous first rest first.begin).mpr ⟨rfl, hc⟩
    exact sum_loop_spec rest first this.2

theorem merge_loop_spec (groups : List (List range)) (hne : ∀ g ∈ groups, g ≠ []) :
    ∀ e, chain_from e groups.flatten →
      partition.merge_loop groups = some (groups.map span) ∧
      chain_from e (groups.map span) ∧
      last_end e (groups.map span) = last_end e groups.flatten := by
  induction groups with
  | nil => intro e _; exact ⟨rfl, trivial, rfl⟩
  | cons g gs ih =>
    intro e h
    have hne' : ∀ x ∈ gs, x ≠ [] := fun x hx => hne x (List.mem_cons_of_mem _ hx)
    cases g with
    | nil => exact absurd rfl (hne [] (List.mem_cons_self _ _))
    | cons first rest =>
      rw [List.flatten_cons, List.cons_append] at h ⊢
      have h1 : e = first.begin := h.1
      have h2 := (chain_from_append rest gs.flatten first.end_).mp h.2
      obtain ⟨hm, hc, hl⟩ := ih hne' (last_end first.end_ rest) h2.2
      refine ⟨?_, ⟨h1, hc⟩, ?_⟩
      · unfold partition.merge_loop
        simp only [partition.sum_parts, sum_loop_spec rest first h2.1, Option.some_bind, hm,
          Option.map_some', List.map_cons, span]
      · show last_end (last_end first.end_ rest) (gs.map span) = last_end first.end_ (rest ++ gs.flatten)
        rw [hl, last_end_append]

theorem span_pos (g : List range) (hne : g ≠ []) (hc : contiguous g)
    (hpos : ∀ r ∈ g, r.begin < r.end_) : (span g).begin < (span g).end_ := by
  cases g with
  | nil => exact absurd rfl hne
  | cons first rest =>
    have hcf := (chain_from_iff_contiguous first rest first.begin).mpr ⟨rfl, hc⟩
    have h1 := hpos first (List.mem_cons_self _ _)
    have h2 := le_last_end rest (fun x hx => hpos x (List.mem_cons_of_mem _ hx)) first.end_ hcf.2
    show first.begin < last_end first.end_ rest
    omega

theorem ctor_loop_chain (M : Nat) (hM : 1 ≤ M) :
    ∀ (fuel remaining begin islot : Nat) (ps : List range),
      begin + remaining < ULL_MOD →
      partition.ctor_loop M fuel remaining begin islot = some ps →
      chain_from begin ps ∧ last_end begin ps = begin + remaining ∧
        ∀ r ∈ ps, r.begin < r.end_ ∧ r.end_ - r.begin ≤ M := by
  intro fuel
  induction fuel with
  | zero => intro remaining begin islot ps _ h; simp [partition.ctor_loop] at h
  | succ fuel ih =>
    intro remaining begin islot ps hb h
    unfold partition.ctor_loop at h
    by_cases h0 : remaining = 0
    · subst h0
      simp only [if_true, Option.some.injEq] at h
      subst h
      exact ⟨trivial, rfl, by simp⟩
    · simp only [h0, if_false] at h
      have hs1 : 1 ≤ min remaining M := by omega
      have hs2 : min remaining M ≤ remaining := Nat.min_le_left _ _
      have hs3 : min remaining M ≤ M := Nat.min_le_right _ _
      have hmod : (begin + min remaining M) % ULL_MOD = begin + min remaining M :=
        Nat.mod_eq_of_lt (by omega)
      rw [hmod] at h
      cases hrec : partition.ctor_loop M fuel (remaining - min remaining M)
          (begin + min remaining M) ((islot + 1) % UINT_MOD) with
      | none => rw [hrec] at h; simp at h
      | some rest =>
        rw [hrec] at h
        simp only [Option.map_some', Option.some.injEq] at h
        subst h
        obtain ⟨hc, hl, hp⟩ := ih _ _ _ rest (by omega) hrec
        refine ⟨⟨rfl, hc⟩, ?_, ?_⟩
        · show last_end (begin + min remaining M) rest = begin + remaining
          rw [hl]; omega
        · intro r hr
          rcases List.mem_cons.mp hr with rfl | hr
          · simp only; omega
          · exact hp r hr

theorem group_size_pos (n k i : Nat) (hk : 1 ≤ k) (hi : i < min k n) : 1 ≤ group_size n k i := by
  unfold group_size
  by_cases hle : k ≤ n
  · have : 1 ≤ n / k := (Nat.one_le_div_iff (by omega)).mpr hle
    omega
  · have hlt : n < k := by omega
    have : i < n % k := by rw [Nat.mod_eq_of_lt hlt]; omega
    simp [this]

theorem groups_nonempty (parts : List range) (k : Nat) (hk : 1 ≤ k) (gs : List (List range))
    (h : partition.group_parts parts k = some gs) : ∀ g ∈ gs, g ≠ [] := by
  obtain ⟨gs', hgs, hl, _, hs⟩ := group_parts_spec parts k hk
  rw [h] at hgs
  cases hgs
  intro g hg hnil
  obtain ⟨i, hi⟩ := List.mem_iff_getElem?.mp hg
  obtain ⟨hlt, _⟩ := List.getElem?_eq_some.mp hi
  have h1 := hs i (by omega)
  rw [hi, hnil] at h1
  have h2 := group_size_pos parts.length k i hk (by omega)
  simp only [Option.map_some', List.length_nil, Option.some.injEq] at h1
  omega

theorem merge_loop_length : ∀ (groups : List (List range)) (ps : List range),
    partition.merge_loop groups = some ps → ps.length = groups.length := by
  intro groups
  induction groups with
  | nil => intro ps h; simp [partition.merge_loop] at h; simp [← h]
  | cons g gs ih =>
    intro ps h
    unfold partition.merge_loop at h
    cases hs : partition.sum_parts g with
    | none => simp [hs] at h
    | some s =>
      cases hm : partition.merge_loop gs with
      | none => simp [hs, hm] at h
      | some rest =>
        simp only [hs, hm, Option.some_bind, Option.map_some', Option.some.injEq] at h
        subst h
        simp [ih rest hm]

theorem chain_from_of_contiguous (ps : List range) (h : contiguous ps) : ∃ e, chain_from e ps := by
  cases ps with
  | nil => exact ⟨0, trivial⟩
  | cons a rest => exact ⟨a.begin, (chain_from_iff_contiguous a rest a.begin).mpr ⟨rfl, h⟩⟩

theorem span_head_last (g : List range) (hne : g ≠ []) :
    ∃ first last, g.head? = some first ∧ g.getLast? = some last ∧
      (span g).begin = first.begin ∧ (span g).end_ = last.end_ := by
  cases g with
  | nil => exact absurd rfl hne
  | cons first rest =>
    have h := last_end_eq_getLast (first :: rest) hne first.begin
    cases hl : (first :: rest).getLast? with
    | none => rw [hl] at h; simp at h
    | some last =>
      rw [hl] at h
      simp only [Option.map_some', Option.some.injEq] at h
      exact ⟨first, last, rfl, rfl, rfl, h.symm⟩

/-- On a non-fixed partition with contiguous ranges `merge(K)`, `K ≥ 1`,
completes and stores the span of every group. -/
theorem merge_total (p : partition) (K : Nat) (hf : p.fixed = false) (hK : 1 ≤ K)
    (hc : contiguous p.parts) :
    ∃ groups, partition.group_parts p.parts K = some groups ∧ groups.flatten = p.parts ∧
      (∀ g ∈ groups, g ≠ []) ∧
      partition.merge K p = some ⟨false, groups.map span⟩ := by
  obtain ⟨gs, hgs, _, hj, _⟩ := group_parts_spec p.parts K hK
  have hne := groups_nonempty p.parts K hK gs hgs
  obtain ⟨e, he⟩ := chain_from_of_contiguous p.parts hc
  rw [← hj] at he
  obtain ⟨hm, _, _⟩ := merge_loop_spec gs hne e he
  refine ⟨gs, hgs, hj, hne, ?_⟩
  unfold partition.merge
  simp [hf, hgs, hm]

/-- The ranges built by the constructor, for `M ≥ 1`, run contiguously from 0
to `E` and each holds between 1 and `M` entries. -/
theorem ctor_some (E M : Nat) (hM : 1 ≤ M) (hE : E < ULL_MOD) :
    ∃ ps, partition.ctor E M = some ⟨false, ps⟩ ∧ chain_from 0 ps ∧ last_end 0 ps = E ∧
      ∀ r ∈ ps, r.begin < r.end_ ∧ r.end_ - r.begin ≤ M := by
  have h := ctor_eq E M hM hE
  unfold partition.ctor at h
  cases hl : partition.ctor_loop M (E + 1) E 0 0 with
  | none => rw [hl] at h; simp at h
  | some ps =>
    refine ⟨ps, by simp [partition.ctor, hl], ?_⟩
    have := ctor_loop_chain M hM (E + 1) E 0 0 ps (by omega) hl
    simpa using this

/-- C2: a partition built by `partition(E, M)` and merged by `merge(K)` consists of
ascending, pairwise disjoint, contiguous ranges from 0 to `E` covering exactly
`[0, E)`, each running from the begin of the first to the end of the last range
of its group. -/
theorem merge_preserves_cover (E M K : Nat) (hE : 1 ≤ E) (hE64 : E < ULL_MOD)
    (hM : 1 ≤ M) (hK : 1 ≤ K) :
    ∃ p groups p', partition.ctor E M = some p ∧ p.fixed = false ∧
      partition.group_parts p.parts K = some groups ∧ groups.flatten = p.parts ∧
      partition.merge K p = some p' ∧
      contiguous p'.parts ∧
      List.Pairwise (fun a b : range => a.end_ ≤ b.begin) p'.parts ∧
      (∀ r ∈ p'.parts, r.begin < r.end_) ∧
      p'.parts.head?.map range.begin = some 0 ∧
      p'.parts.getLast?.map range.end_ = some E ∧
      (∀ e, covers p'.parts e ↔ e < E) ∧
      List.Forall₂ (fun g r => ∃ first last, g.head? = some first ∧ g.getLast? = some last ∧
        r.begin = first.begin ∧ r.end_ = last.end_) groups p'.parts := by
  obtain ⟨ps, hctor, hchain, hlast, hpos⟩ := ctor_some E M hM hE64
  have hps : ps ≠ [] := by
    intro h; subst h; simp only [last_end] at hlast; omega
  have hcont : contiguous ps := by
    cases ps with
    | nil => exact absurd rfl hps
    | cons a rest => exact ((chain_from_iff_contiguous a rest 0).mp hchain).2
  obtain ⟨gs, hgs, hj, hne, hmerge⟩ := merge_total ⟨false, ps⟩ K rfl hK hcont
  have hj' : gs.flatten = ps := hj
  have hchain' : chain_from 0 gs.flatten := by rw [hj']; exact hchain
  obtain ⟨_, hmc, hml⟩ := merge_loop_spec gs hne 0 hchain'
  rw [hj', hlast] at hml
  have hmne : gs.map span ≠ [] := by
    intro h; rw [h] at hml; simp only [last_end] at hml; omega
  have hgc : ∀ g ∈ gs, contiguous g := by
    have hnil : [] ∉ gs := fun h => hne [] h rfl
    have := (List.chain'_flatten hnil).mp (show List.Chain' _ gs.flatten by rw [hj']; exact hcont)
    exact this.1
  have hmpos : ∀ r ∈ gs.map span, r.begin < r.end_ := by
    intro r hr
    obtain ⟨g, hg, rfl⟩ := List.mem_map.mp hr
    refine span_pos g (hne g hg) (hgc g hg) (fun x hx => (hpos x ?_).1)
    rw [← hj']
    exact List.mem_flatten_of_mem hg hx
  refine ⟨⟨false, ps⟩, gs, ⟨false, gs.map span⟩, hctor, rfl, hgs, hj, hmerge, ?_, ?_, hmpos,
    ?_, ?_, ?_, ?_⟩
  · cases hm : gs.map span with
    | nil => exact absurd hm hmne
    | cons a rest =>
      rw [hm] at hmc
      exact ((chain_from_iff_contiguous a rest 0).mp hmc).2
  · exact (pairwise_chain _ hmpos 0 hmc).1
  · show (gs.map span).head?.map range.begin = some 0
    cases hm : gs.map span with
    | nil => exact absurd hm hmne
    | cons a rest =>
      rw [hm] at hmc
      have : 0 = a.begin := hmc.1
      simp [← this]
  · show (gs.map span).getLast?.map range.end_ = some E
    rw [last_end_eq_getLast _ hmne 0, hml]
  · intro e
    have := covers_chain _ hmpos 0 hmc e
    rw [hml] at this
    simpa using this
  · show List.Forall₂ _ gs (gs.map span)
    rw [List.forall₂_map_right_iff, List.forall₂_same]
    intro g hg
    exact span_head_last g (hne g hg)

/-- C1 (evaluation at the failing input): `partition(2^32 + 1, 1)` holds
`2^32 + 1` ranges and the range at index `2^32` is `[2^32, 2^32 + 1)` under
slot 0, not slot `2^32`: the slot counter `islot` is an `unsigned int`. -/
theorem ctor_slot_wraps :
    ∃ p, partition.ctor 4294967297 1 = some p ∧ p.parts.length = 4294967297 ∧
      p.parts[4294967296]? = some ⟨0, 4294967296, 4294967297⟩ := by
  have h := ctor_eq 4294967297 1 (Nat.le_refl 1) (by unfold ULL_MOD; norm_num)
  have hn : (4294967297 + 1 - 1) / 1 = 4294967297 := by norm_num
  rw [hn] at h
  refine ⟨_, h, ?_, ?_⟩
  · simp only [List.length_map, List.length_range]
  · have hlt : 4294967296 < 4294967297 := by norm_num
    simp only [List.getElem?_map, List.getElem?_range hlt, Option.map_some', nth_range]
    have h1 : 4294967296 % UINT_MOD = 0 := by unfold UINT_MOD; norm_num
    rw [h1]
    norm_num

/-- C3 (evaluation at the failing input): `truncate(2)` of `partition(3, 1)`
keeps all three ranges, three entries in total. -/
theorem truncate_exceeds_limit :
    ∃ p, partition.ctor 3 1 = some p ∧
      (partition.truncate 2 p).parts = [⟨0, 0, 1⟩, ⟨1, 1, 2⟩, ⟨2, 2, 3⟩] ∧
      total_entries (partition.truncate 2 p).parts = 3 :=
  ⟨⟨false, [⟨0, 0, 1⟩, ⟨1, 1, 2⟩, ⟨2, 2, 3⟩]⟩, by decide, by decide, by decide⟩

/-- C4 (evaluation at the failing input): `truncate(3)` of `partition(3, 1)`
keeps only `[0,1)` and `[1,2)`, so entry 2 is no longer covered. -/
theorem truncate_drops_entry :
    ∃ p, partition.ctor 3 1 = some p ∧
      (partition.truncate 3 p).parts = [⟨0, 0, 1⟩, ⟨1, 1, 2⟩] ∧
      ¬ covers (partition.truncate 3 p).parts 2 := by
  refine ⟨⟨false, [⟨0, 0, 1⟩, ⟨1, 1, 2⟩, ⟨2, 2, 3⟩]⟩, by decide, by decide, ?_⟩
  have h : (partition.truncate 3 ⟨false, [⟨0, 0, 1⟩, ⟨1, 1, 2⟩, ⟨2, 2, 3⟩]⟩).parts
      = [⟨0, 0, 1⟩, ⟨1, 1, 2⟩] := by decide
  rw [h]
  simp [covers]

/-- C5: `merge(K)` with `K ≥ 1` on a non-fixed partition with `n` ranges leaves
exactly `min(K, n)` ranges, hence at most `K`, whenever it completes, and it
completes on every partition whose ranges are contiguous; `partition(E)` with
the default cap 1 followed by `merge(N)`, `N > E`, has exactly `E` ranges. -/
theorem merge_size (p : partition) (K : Nat) (hf : p.fixed = false) (hK : 1 ≤ K) :
    (∀ p', partition.merge K p = some p' →
      p'.parts.length = min K p.parts.length ∧ p'.parts.length ≤ K) ∧
    (contiguous p.parts → ∃ p', partition.merge K p = some p') ∧
    (∀ E N, E < ULL_MOD → E < N →
      ∃ q q', partition.ctor E 1 = some q ∧ q.fixed = false ∧
        partition.merge N q = some q' ∧ q'.parts.length = E) := by
  refine ⟨?_, ?_, ?_⟩
  · intro p' h
    obtain ⟨gs, hgs, hl, _, _⟩ := group_parts_spec p.parts K hK
    unfold partition.merge at h
    simp only [hf, hgs, Option.some_bind, Bool.false_eq_true, if_false] at h
    cases hm : partition.merge_loop gs with
    | none => simp [hm] at h
    | some ps =>
      simp only [hm, Option.map_some', Option.some.injEq] at h
      subst h
      have := merge_loop_length gs ps hm
      simp only
      omega
  · intro hc
    obtain ⟨gs, _, _, _, hm⟩ := merge_total p K hf hK hc
    exact ⟨_, hm⟩
  · intro E N hE hN
    obtain ⟨ps, hctor, hchain, _, _⟩ := ctor_some E 1 (Nat.le_refl 1) hE
    have hlen : ps.length = E := by
      have h := ctor_eq E 1 (Nat.le_refl 1) hE
      rw [hctor] at h
      simp only [Option.some.injEq, partition.mk.injEq, true_and] at h
      rw [h]
      simp
    have hcont : contiguous ps := by
      cases ps with
      | nil => exact List.chain'_nil
      | cons a rest => exact ((chain_from_iff_contiguous a rest 0).mp hchain).2
    obtain ⟨gs, hgs, _, _, hm⟩ := merge_total ⟨false, ps⟩ N rfl (by omega) hcont
    obtain ⟨gs', hgs', hl, _, _⟩ := group_parts_spec ps N (by omega)
    have hgs2 : partition.group_parts ps N = some gs := hgs
    rw [hgs2] at hgs'
    cases hgs'
    refine ⟨_, _, hctor, rfl, hm, ?_⟩
    simp only [List.length_map, hl, hlen]
    omega

/-- C6: for `1 ≤ k ≤ n`, `group_parts(parts, k)` (and `vec::group`) splits the
`n` elements of `parts` into `k` consecutive groups whose concatenation is
`parts`; group `i` has `n / k + 1` elements for `i < n mod k` and `n / k`
elements otherwise, so two group sizes differ by at most one. -/
theorem group_parts_even (parts : List range) (k : Nat) (hk : 1 ≤ k)
    (hkn : k ≤ parts.length) :
    ∃ gs, partition.group_parts parts k = some gs ∧ vec.group parts k = some gs ∧
      gs.length = k ∧ gs.flatten = parts ∧
      (∀ i, i < k → ∃ g, gs[i]? = some g ∧
        g.length = parts.length / k + (if i < parts.length % k then 1 else 0)) ∧
      (∀ g ∈ gs, ∀ g' ∈ gs, g.length ≤ g'.length + 1) := by
  obtain ⟨gs, hgs, hl, hj, hs⟩ := group_parts_spec parts k hk
  have hmin : min k parts.length = k := Nat.min_eq_left hkn
  rw [hmin] at hl hs
  have hsz : ∀ i, i < k → ∃ g, gs[i]? = some g ∧
      g.length = parts.length / k + (if i < parts.length % k then 1 else 0) := by
    intro i hi
    have h := hs i hi
    cases hg : gs[i]? with
    | none => rw [hg] at h; simp at h
    | some g =>
      rw [hg] at h
      simp only [Option.map_some', Option.some.injEq, group_size] at h
      exact ⟨g, rfl, h⟩
  have hbound : ∀ g ∈ gs, parts.length / k ≤ g.length ∧ g.length ≤ parts.length / k + 1 := by
    intro g hg
    obtain ⟨i, hi⟩ := List.mem_iff_getElem?.mp hg
    obtain ⟨hlt, _⟩ := List.getElem?_eq_some.mp hi
    obtain ⟨g0, hg0, hlen⟩ := hsz i (by omega)
    rw [hi] at hg0
    cases hg0
    rw [hlen]
    by_cases hc : i < parts.length % k <;> simp [hc]
  refine ⟨gs, hgs, hgs, hl, hj, hsz, ?_⟩
  intro g hg g' hg'
  have h1 := hbound g hg
  have h2 := hbound g' hg'
  omega

/-- Witness of C2 at `E = 10`, `M = 3`, `K = 2`. -/
theorem merge_preserves_cover_witness :
    (1 ≤ 10 ∧ 10 < ULL_MOD ∧ 1 ≤ 3 ∧ 1 ≤ 2) ∧
    ∃ p groups p', partition.ctor 10 3 = some p ∧ p.fixed = false ∧
      partition.group_parts p.parts 2 = some groups ∧ groups.flatten = p.parts ∧
      partition.merge 2 p = some p' ∧
      contiguous p'.parts ∧
      List.Pairwise (fun a b : range => a.end_ ≤ b.begin) p'.parts ∧
      (∀ r ∈ p'.parts, r.begin < r.end_) ∧
      p'.parts.head?.map range.begin = some 0 ∧
      p'.parts.getLast?.map range.end_ = some 10 ∧
      (∀ e, covers p'.parts e ↔ e < 10) ∧
      List.Forall₂ (fun g r => ∃ first last, g.head? = some first ∧ g.getLast? = some last ∧
        r.begin = first.begin ∧ r.end_ = last.end_) groups p'.parts :=
  ⟨⟨by decide, by decide, by decide, by decide⟩,
    merge_preserves_cover 10 3 2 (by decide) (by decide) (by decide) (by decide)⟩

/-- Witness of C5 at the partition `[0,1), [1,2), [2,3)` and `K = 2`. -/
theorem merge_size_witness :
    (sample_partition.fixed = false ∧ 1 ≤ 2) ∧
    partition.merge 2 sample_partition = some ⟨false, [⟨0, 0, 2⟩, ⟨2, 2, 3⟩]⟩ ∧
    (∀ p', partition.merge 2 sample_partition = some p' →
      p'.parts.length = min 2 sample_partition.parts.length ∧ p'.parts.length ≤ 2) ∧
    (contiguous sample_partition.parts → ∃ p', partition.merge 2 sample_partition = some p') ∧
    (∀ E N, E < ULL_MOD → E < N →
      ∃ q q', partition.ctor E 1 = some q ∧ q.fixed = false ∧
        partition.merge N q = some q' ∧ q'.parts.length = E) :=
  ⟨⟨rfl, by decide⟩, by decide, merge_size sample_partition 2 rfl (by decide)⟩

/-- Witness of C6 at five unit ranges and `k = 3`. -/
theorem group_parts_even_witness :
    (1 ≤ 3 ∧ 3 ≤ sample_parts.length) ∧
    ∃ gs, partition.group_parts sample_parts 3 = some gs ∧ vec.group sample_parts 3 = some gs ∧
      gs.length = 3 ∧ gs.flatten = sample_parts ∧
      (∀ i, i < 3 → ∃ g, gs[i]? = some g ∧
        g.length = sample_parts.length / 3 + (if i < sample_parts.length % 3 then 1 else 0)) ∧
      (∀ g ∈ gs, ∀ g' ∈ gs, g.length ≤ g'.length + 1) :=
  ⟨⟨by decide, by decide⟩, group_parts_even sample_parts 3 (by decide) (by decide)⟩

end dataset

end ana

namespace ana

namespace term

theorem values_of_updated {T : Type} (cs : List T) :
    ∀ c : calculation T, c.m_updated = true →
      c.values cs = (List.replicate cs.length c.m_value, c) := by
  induction cs with
  | nil => intro c _; rfl
  | cons x xs ih =>
    intro c h
    have hv : c.value x = (c.m_value, c) := by simp [calculation.value, h]
    simp only [calculation.values, hv, ih c h, List.length_cons, List.replicate_succ]

theorem values_after_execute {T : Type} (c : calculation T) (x : T) (xs : List T) :
    c.execute.values (x :: xs) =
      (List.replicate (xs.length + 1) x, ⟨x, true, c.n_calculate + 1⟩) := by
  have hv : c.execute.value x = (x, ⟨x, true, c.n_calculate + 1⟩) := by
    simp [calculation.value, calculation.execute, calculation.reset, calculation.update]
  simp only [calculation.values, hv, values_of_updated xs ⟨x, true, c.n_calculate + 1⟩ rfl,
    List.replicate_succ]

/-- C7: in the row that `execute()` opens, `calculate()` is invoked exactly once
when `value()` is called at least once, however often, and not at all when
`value()` is not called. -/
theorem calculate_once_per_row {T : Type} (c : calculation T) :
    (c.execute.values []).2.n_calculate = c.n_calculate ∧
    ∀ (x : T) (xs : List T), (c.execute.values (x :: xs)).2.n_calculate = c.n_calculate + 1 := by
  refine ⟨rfl, ?_⟩
  intro x xs
  rw [values_after_execute]

/-- C8: all `value()` calls between two `execute()` calls return what
`calculate()` gave at the first of them, whatever it would give later; the
next `execute()` clears `m_updated` and the first `value()` after it returns
the newly calculated value. -/
theorem value_cached_within_row {T : Type} (c : calculation T) (x : T) (xs : List T) :
    (c.execute.values (x :: xs)).1 = List.replicate (xs.length + 1) x ∧
    (c.execute.values (x :: xs)).2.execute.m_updated = false ∧
    ∀ y : T, ((c.execute.values (x :: xs)).2.execute.value y).1 = y ∧
      ((c.execute.values (x :: xs)).2.execute.value y).2.n_calculate = c.n_calculate + 2 := by
  rw [values_after_execute]
  refine ⟨rfl, rfl, ?_⟩
  intro y
  simp [calculation.value, calculation.execute, calculation.reset, calculation.update]

end term

theorem apply_scales_fields {W : Type} [Mul W] (ss : List W) :
    ∀ c : counter W,
      (ss.foldl counter.apply_scale c).m_raw = c.m_raw ∧
      (ss.foldl counter.apply_scale c).m_selection = c.m_selection ∧
      (ss.foldl counter.apply_scale c).m_scale = ss.foldl (fun x s => x * s) c.m_scale := by
  induction ss with
  | nil => intro c; exact ⟨rfl, rfl, rfl⟩
  | cons s ss ih =>
    intro c
    obtain ⟨h1, h2, h3⟩ := ih (c.apply_scale s)
    exact ⟨h1, h2, h3⟩

/-- C9: with a bound selection, `counter::execute` applies `count` exactly once
to the state when the selection passes the cut on the row, also when its weight
is zero, and leaves the state as it is when the selection does not pass. -/
theorem execute_counts_iff_passed {σ W : Type} [Mul W] [One W] [Zero W] (count : W → σ → σ)
    (sel : Nat → selection_row W) (c : counter W) (a : Nat) (part : dataset.range)
    (entry : Nat) (st : σ) (hb : c.m_selection = some a) :
    ((sel a).passed_cut = true →
      c.execute count sel part entry st =
        some (count (if c.m_raw then 1 else c.m_scale * (sel a).get_weight) st)) ∧
    ((sel a).passed_cut = true → (sel a).get_weight = 0 →
      c.execute count sel part entry st =
        some (count (if c.m_raw then 1 else c.m_scale * 0) st)) ∧
    ((sel a).passed_cut = false → c.execute count sel part entry st = some st) := by
  refine ⟨?_, ?_, ?_⟩
  · intro hp
    simp [counter.execute, hb, hp]
  · intro hp hw
    simp [counter.execute, hb, hp, hw]
  · intro hp
    simp [counter.execute, hb, hp]

/-- C10: a counter that is not raw, starts from scale 1 and receives
`apply_scale(s1)`, ..., `apply_scale(sn)` hands `count` the weight
`(1 * s1 * ... * sn) * S.get_weight()` on a row where its selection passes. -/
theorem scaled_weight {σ W : Type} [Mul W] [One W] (count : W → σ → σ)
    (sel : Nat → selection_row W) (c : counter W) (ss : List W) (a : Nat)
    (part : dataset.range) (entry : Nat) (st : σ)
    (hraw : c.m_raw = false) (hscale : c.m_scale = 1) (hb : c.m_selection = some a)
    (hp : (sel a).passed_cut = true) :
    (ss.foldl counter.apply_scale c).execute count sel part entry st =
      some (count (ss.foldl (fun x s => x * s) 1 * (sel a).get_weight) st) := by
  obtain ⟨h1, h2, h3⟩ := apply_scales_fields ss c
  simp [counter.execute, h1, h2, h3, hraw, hscale, hb, hp]

/-- Corollary of the scale bookkeeping in associative arithmetic: the weight is
the product of the scales times the selection weight. -/
theorem scaled_weight_monoid {σ W : Type} [Monoid W] (count : W → σ → σ)
    (sel : Nat → selection_row W) (c : counter W) (ss : List W) (a : Nat)
    (part : dataset.range) (entry : Nat) (st : σ)
    (hraw : c.m_raw = false) (hscale : c.m_scale = 1) (hb : c.m_selection = some a)
    (hp : (sel a).passed_cut = true) :
    (ss.foldl counter.apply_scale c).execute count sel part entry st =
      some (count (ss.prod * (sel a).get_weight) st) := by
  obtain ⟨h1, h2, h3⟩ := apply_scales_fields ss c
  simp [counter.execute, h1, h2, h3, hraw, hscale, hb, hp, List.prod_eq_foldl]

/-- Witness of C9: a counter bound to selection 0, on a row that passes with
weight zero and on a row that does not pass. -/
theorem execute_counts_iff_passed_witness :
    sample_counter.m_selection = some 0 ∧
    ((sample_row_zero 0).passed_cut = true ∧ (sample_row_zero 0).get_weight = 0 ∧
      sample_counter.execute sample_count sample_row_zero ⟨0, 0, 1⟩ 0 7 =
        some (sample_count (if sample_counter.m_raw then 1 else sample_counter.m_scale * 0) 7)) ∧
    ((sample_row_fail 0).passed_cut = false ∧
      sample_counter.execute sample_count sample_row_fail ⟨0, 0, 1⟩ 0 7 = some 7) :=
  ⟨rfl,
    ⟨rfl, rfl,
      (execute_counts_iff_passed sample_count sample_row_zero sample_counter 0 ⟨0, 0, 1⟩ 0 7
        rfl).2.1 rfl rfl⟩,
    ⟨rfl,
      (execute_counts_iff_passed sample_count sample_row_fail sample_counter 0 ⟨0, 0, 1⟩ 0 7
        rfl).2.2 rfl⟩⟩

/-- Witness of C10: scales 2 and 3 on a fresh counter bound to a selection that
passes with weight 5. -/
theorem scaled_weight_witness :
    ((counter.ctor : counter Int).set_selection 0).m_raw = false ∧
    ((counter.ctor : counter Int).set_selection 0).m_scale = 1 ∧
    ((counter.ctor : counter Int).set_selection 0).m_selection = some 0 ∧
    (sample_row_five 0).passed_cut = true ∧
    ([2, 3].foldl counter.apply_scale ((counter.ctor : counter Int).set_selection 0)).execute
        sample_count sample_row_five ⟨0, 0, 1⟩ 0 0 =
      some (sample_count ([2, 3].foldl (fun x s => x * s) 1 * (sample_row_five 0).get_weight) 0) :=
  ⟨rfl, rfl, rfl, rfl, scaled_weight sample_count sample_row_five
    ((counter.ctor : counter Int).set_selection 0) [2, 3] 0 ⟨0, 0, 1⟩ 0 0 rfl rfl rfl rfl⟩

end ana

namespace ana

theorem counter_raw_fields {W : Type} [Mul W] (ss : List W) (c : counter W) :
    (ss.foldl counter.apply_scale (c.use_weight false)).m_raw = true ∧
    (ss.foldl counter.apply_scale (c.use_weight false)).m_selection = c.m_selection ∧
    ((ss.foldl counter.apply_scale c).use_weight false).m_raw = true ∧
    ((ss.foldl counter.apply_scale c).use_weight false).m_selection = c.m_selection := by
  obtain ⟨h1, h2, _⟩ := apply_scales_fields ss (c.use_weight false)
  obtain ⟨_, h4, _⟩ := apply_scales_fields ss c
  exact ⟨h1, h2, rfl, h4⟩

/-- C11 (as amended): a counter declared raw by `use_weight(false)` hands `count`
the weight 1 on a row where its selection passes, whatever scales were applied
before or after the declaration: the scale is not applied to a raw counter. -/
theorem raw_weight_is_one {σ W : Type} [Mul W] [One W] (count : W → σ → σ)
    (sel : Nat → selection_row W) (c : counter W) (ss : List W) (a : Nat)
    (part : dataset.range) (entry : Nat) (st : σ)
    (hb : c.m_selection = some a) (hp : (sel a).passed_cut = true) :
    (ss.foldl counter.apply_scale (c.use_weight false)).execute count sel part entry st =
      some (count 1 st) ∧
    ((ss.foldl counter.apply_scale c).use_weight false).execute count sel part entry st =
      some (count 1 st) := by
  obtain ⟨h1, h2, h3, h4⟩ := counter_raw_fields ss c
  constructor
  · simp [counter.execute, h1, h2, hb, hp]
  · simp [counter.execute, h3, h4, hb, hp]

/-- C11 (counterexample): a raw counter with scale 2 whose selection passes hands
`count` the weight 1, not `1 * 2`. -/
theorem raw_weight_not_scaled :
    (sample_counter.use_weight false).m_scale = 2 ∧
    (sample_row_five 0).passed_cut = true ∧
    (sample_counter.use_weight false).execute sample_count sample_row_five ⟨0, 0, 1⟩ 0 0 =
      some (sample_count 1 0) ∧
    (sample_counter.use_weight false).execute sample_count sample_row_five ⟨0, 0, 1⟩ 0 0 ≠
      some (sample_count (1 * (sample_counter.use_weight false).m_scale) 0) := by
  decide

/-- Witness of C11: scales 3 and 4 applied to the sample counter around the
declaration as raw. -/
theorem raw_weight_is_one_witness :
    (sample_counter.m_selection = some 0 ∧ (sample_row_five 0).passed_cut = true) ∧
    ([3, 4].foldl counter.apply_scale (sample_counter.use_weight false)).execute
        sample_count sample_row_five ⟨0, 0, 1⟩ 0 0 = some (sample_count 1 0) ∧
    (([3, 4].foldl counter.apply_scale sample_counter).use_weight false).execute
        sample_count sample_row_five ⟨0, 0, 1⟩ 0 0 = some (sample_count 1 0) :=
  ⟨⟨rfl, rfl⟩, raw_weight_is_one sample_count sample_row_five sample_counter [3, 4] 0
    ⟨0, 0, 1⟩ 0 0 rfl rfl⟩

/-- C12: a `selection::weight` with decision `d` applied on a parent `P` passes
exactly when `P` passes and has weight `P.get_weight() * d`; without a parent it
always passes and has weight `d`.  It never rejects a row its parent accepts. -/
theorem weight_follows_parent {W : Type} [Mul W] (name : String) (channel : Bool) (d : W) :
    (∀ P : selection W,
      (selection.mk name channel (some P) (.weight d)).passed_cut = P.passed_cut ∧
      (selection.mk name channel (some P) (.weight d)).get_weight = P.get_weight * d) ∧
    ((selection.mk name channel none (.weight d) : selection W).passed_cut = true ∧
      (selection.mk name channel none (.weight d) : selection W).get_weight = d) ∧
    (∀ P : selection W, P.passed_cut = true →
      (selection.mk name channel (some P) (.weight d)).passed_cut = true) := by
  refine ⟨fun P => ⟨?_, ?_⟩, ⟨?_, ?_⟩, fun P hP => ?_⟩
  · simp [selection.passed_cut]
  · simp [selection.get_weight]
  · simp [selection.passed_cut]
  · simp [selection.get_weight]
  · simp [selection.passed_cut, hP]

theorem weight_fold {W : Type} [Mul W] (ds : List W) :
    ∀ s : selection W,
      (ds.foldl (fun previous decision =>
        selection.mk "" false (some previous) (.weight decision)) s).get_weight =
      ds.foldl (fun x y => x * y) s.get_weight := by
  induction ds with
  | nil => intro s; rfl
  | cons d ds ih =>
    intro s
    simp only [List.foldl_cons]
    rw [ih]
    simp [selection.get_weight]

/-- C13: in a chain of weight selections with decisions `d1, ..., dn`, the first
initial and each next applied on the one before, the last one has weight
`d1 * d2 * ... * dn` (multiplied left to right); a weight `B` applied on a
selection `A` has `A`'s weight times the weight `B` has as an initial
selection. -/
theorem weight_chain_product {W : Type} [Mul W] (d : W) (ds : List W) :
    (selection.weight_chain d ds).get_weight = ds.foldl (fun x y => x * y) d ∧
    (∀ (A : selection W) (name : String) (channel : Bool) (dB : W),
      (selection.mk name channel (some A) (.weight dB)).get_weight =
        A.get_weight * (selection.mk name channel none (.weight dB) : selection W).get_weight) := by
  constructor
  · unfold selection.weight_chain
    rw [weight_fold]
    simp [selection.get_weight]
  · intro A name channel dB
    simp [selection.get_weight]

/-- In associative arithmetic the weight of a chain of weight selections is the
product of the decisions. -/
theorem weight_chain_prod {W : Type} [Monoid W] (d : W) (ds : List W) :
    (selection.weight_chain d ds).get_weight = (d :: ds).prod := by
  unfold selection.weight_chain
  rw [weight_fold]
  simp [selection.get_weight, List.prod_cons, List.prod_eq_foldl]

theorem concatenate_loop (names : List String) :
    ∀ joined : String,
      names.foldl (fun joined name => joined ++ name ++ "/") joined =
        joined ++ selection.slash_join names := by
  induction names with
  | nil => intro joined; simp [selection.slash_join]
  | cons name names ih =>
    intro joined
    simp only [List.foldl_cons, selection.slash_join]
    rw [ih, String.append_assoc, String.append_assoc, String.append_assoc]

theorem concatenate_names_slash (names : List String) :
    selection.concatenate_names names "/" = selection.slash_join names := by
  unfold selection.concatenate_names
  rw [concatenate_loop, String.empty_append]

theorem channels_loop_spec {W : Type} :
    ∀ (q : selection W) (channels : List String),
      q.channels_loop channels =
        channels ++ ((q.lineage.filter selection.is_channel).map selection.get_name).reverse
  | .mk m_name m_channel none kind, channels => by
    cases m_channel <;>
      simp [selection.channels_loop, selection.lineage, selection.is_channel,
        selection.get_name]
  | .mk m_name m_channel (some previous) kind, channels => by
    have ih := channels_loop_spec previous
    cases m_channel <;>
      simp [selection.channels_loop, selection.lineage, selection.is_channel,
        selection.get_name, ih, List.filter_append]

theorem presels_loop_spec {W : Type} :
    ∀ (q : selection W) (presels : List String),
      q.presels_loop presels = presels ++ (q.lineage.map selection.get_name).reverse
  | .mk m_name m_channel none kind, presels => by
    simp [selection.presels_loop, selection.lineage, selection.get_name]
  | .mk m_name m_channel (some previous) kind, presels => by
    have ih := presels_loop_spec previous
    simp [selection.presels_loop, selection.lineage, selection.get_name, ih]

/-- The path is the slash-joined names of the channel ancestors, root first,
followed by the own name. -/
theorem get_path_eq {W : Type} (s : selection W) :
    s.get_path =
      selection.slash_join ((s.ancestors.filter selection.is_channel).map selection.get_name)
        ++ s.get_name := by
  unfold selection.get_path selection.ancestors
  cases s.get_previous with
  | none => simp [concatenate_names_slash]
  | some presel => simp [concatenate_names_slash, channels_loop_spec]

/-- The full path is the slash-joined names of all ancestors, root first,
followed by the own name. -/
theorem get_full_path_eq {W : Type} (s : selection W) :
    s.get_full_path =
      selection.slash_join (s.ancestors.map selection.get_name) ++ s.get_name := by
  unfold selection.get_full_path selection.ancestors
  cases s.get_previous with
  | none => simp [concatenate_names_slash]
  | some presel => simp [concatenate_names_slash, presels_loop_spec]

/-- C14: `get_path()` is the names of the ancestors whose channel flag is set, in
root-to-parent order, each followed by `/`, followed by the own name, whatever
the own channel flag; `get_full_path()` is the same over all ancestors.  For
filter `A`, then channel `B`, then `C`, the path of `C` is `B/C`. -/
theorem path_lists_channel_ancestors {W : Type} (s : selection W) :
    s.get_path =
      selection.slash_join ((s.ancestors.filter selection.is_channel).map selection.get_name)
        ++ s.get_name ∧
    s.get_full_path =
      selection.slash_join (s.ancestors.map selection.get_name) ++ s.get_name ∧
    (∀ (name : String) (channel : Bool) (kind : selection_kind W),
      (selection.mk name channel s.get_previous kind).get_path =
        (selection.mk name (!channel) s.get_previous kind).get_path) ∧
    sample_C.ancestors = [sample_A, sample_B] ∧
    sample_C.get_path = "B/C" ∧ sample_C.get_full_path = "A/B/C" := by
  refine ⟨get_path_eq s, get_full_path_eq s, ?_, rfl, by decide, by decide⟩
  intro name channel kind
  rfl

end ana

namespace ana

theorem add_selection_map {W : Type} (a : analysis W) (node : selection W) (p : String) :
    (a.add_selection node).1.m_selection_map p =
      if a.has_selection node.get_path then a.m_selection_map p
      else if p = node.get_path then some node else a.m_selection_map p := by
  unfold analysis.add_selection
  by_cases h : a.has_selection node.get_path = true
  · simp [h]
  · simp [h, map_assign]

theorem add_selection_thrown {W : Type} (a : analysis W) (node : selection W) :
    (a.add_selection node).2.isSome = a.has_selection node.get_path := by
  unfold analysis.add_selection
  by_cases h : a.has_selection node.get_path = true
  · simp [h]
  · simp [h]

/-- After a run of `add_selection` calls from the empty analysis, the map holds
at every path the first node passed with that path, and nothing else. -/
theorem add_selections_map {W : Type} (nodes : List (selection W)) :
    ∀ p : String,
      (∀ n, ((analysis.ctor : analysis W).add_selections nodes).m_selection_map p = some n →
        n ∈ nodes ∧ n.get_path = p) ∧
      ((∃ s ∈ nodes, s.get_path = p) →
        (((analysis.ctor : analysis W).add_selections nodes).m_selection_map p).isSome = true) := by
  induction nodes using List.reverseRecOn with
  | nil =>
    intro p
    simp [analysis.add_selections, analysis.ctor]
  | append_singleton nodes x ih =>
    intro p
    have hstep : (analysis.ctor : analysis W).add_selections (nodes ++ [x]) =
        (((analysis.ctor : analysis W).add_selections nodes).add_selection x).1 := by
      simp [analysis.add_selections, List.foldl_append]
    rw [hstep, add_selection_map]
    obtain ⟨ih1, ih2⟩ := ih p
    by_cases hx : ((analysis.ctor : analysis W).add_selections nodes).has_selection x.get_path = true
    · simp only [hx, if_true]
      refine ⟨fun n hn => ?_, fun hex => ?_⟩
      · obtain ⟨h1, h2⟩ := ih1 n hn
        exact ⟨List.mem_append_left _ h1, h2⟩
      · obtain ⟨s, hs, hsp⟩ := hex
        rcases List.mem_append.mp hs with hs | hs
        · exact ih2 ⟨s, hs, hsp⟩
        · have : s = x := by simpa using hs
          subst this
          rw [← hsp]
          exact hx
    · simp only [hx, Bool.false_eq_true, if_false]
      by_cases hp : p = x.get_path
      · simp only [hp, if_true]
        refine ⟨fun n hn => ?_, fun _ => rfl⟩
        have : x = n := by simpa using hn
        subst this
        exact ⟨List.mem_append_right _ (List.mem_singleton_self _), rfl⟩
      · simp only [hp, if_false]
        refine ⟨fun n hn => ?_, fun hex => ?_⟩
        · obtain ⟨h1, h2⟩ := ih1 n hn
          exact ⟨List.mem_append_left _ h1, h2⟩
        · obtain ⟨s, hs, hsp⟩ := hex
          rcases List.mem_append.mp hs with hs | hs
          · exact ih2 ⟨s, hs, hsp⟩
          · have : s = x := by simpa using hs
            subst this
            exact absurd hsp.symm hp

theorem has_selection_iff {W : Type} (nodes : List (selection W)) (p : String) :
    ((analysis.ctor : analysis W).add_selections nodes).has_selection p = true ↔
      ∃ s ∈ nodes, s.get_path = p := by
  obtain ⟨h1, h2⟩ := add_selections_map nodes p
  constructor
  · intro h
    unfold analysis.has_selection at h
    cases hm : ((analysis.ctor : analysis W).add_selections nodes).m_selection_map p with
    | none => rw [hm] at h; simp at h
    | some n =>
      obtain ⟨hn, hp⟩ := h1 n hm
      exact ⟨n, hn, hp⟩
  · intro h
    exact h2 h

/-- C15 (as amended): after any run of `add_selection` calls from the empty
analysis, adding a selection throws exactly when a selection with the same path
(the names of its channel ancestors and its own name) was passed before; this
covers a selection of the same name under the same parent.  `analysis[path]`
throws exactly when no selection with that path was passed, and otherwise
returns a selection that was passed and has that path. -/
theorem add_selection_throws_iff_path_taken {W : Type} (nodes : List (selection W))
    (node : selection W) :
    ((((analysis.ctor : analysis W).add_selections nodes).add_selection node).2.isSome = true ↔
      ∃ s ∈ nodes, s.get_path = node.get_path) ∧
    (∀ s ∈ nodes, s.get_name = node.get_name → s.get_previous = node.get_previous →
      (((analysis.ctor : analysis W).add_selections nodes).add_selection node).2 =
        some "selection already exists") ∧
    (∀ path : String,
      (∃ msg, ((analysis.ctor : analysis W).add_selections nodes).index path = Except.error msg) ↔
        ¬ ∃ s ∈ nodes, s.get_path = path) ∧
    (∀ (path : String) (found : selection W),
      ((analysis.ctor : analysis W).add_selections nodes).index path = Except.ok found →
        found ∈ nodes ∧ found.get_path = path) := by
  refine ⟨?_, ?_, ?_, ?_⟩
  · rw [add_selection_thrown]
    exact has_selection_iff nodes node.get_path
  · intro s hs hname hprev
    have hpath : s.get_path = node.get_path := by
      unfold selection.get_path
      rw [hname, hprev]
    have h := (has_selection_iff nodes node.get_path).mpr ⟨s, hs, hpath⟩
    simp [analysis.add_selection, h]
  · intro path
    have hiff := has_selection_iff nodes path
    obtain ⟨h1, _⟩ := add_selections_map nodes path
    unfold analysis.index
    by_cases h : ((analysis.ctor : analysis W).add_selections nodes).has_selection path = true
    · have hex := hiff.mp h
      cases hm : ((analysis.ctor : analysis W).add_selections nodes).m_selection_map path with
      | none => simp [analysis.has_selection, hm] at h
      | some n => simp [h, hex]
    · have hex : ¬ ∃ s ∈ nodes, s.get_path = path := fun hc => h (hiff.mpr hc)
      simp only [h, hex, not_false_eq_true, iff_true]
      exact ⟨"selection does not exist", by simp⟩
  · intro path found hfound
    obtain ⟨h1, _⟩ := add_selections_map nodes path
    unfold analysis.index at hfound
    by_cases h : ((analysis.ctor : analysis W).add_selections nodes).has_selection path = true
    · cases hm : ((analysis.ctor : analysis W).add_selections nodes).m_selection_map path with
      | none => simp [analysis.has_selection, hm] at h
      | some n =>
        simp only [h, hm, Bool.not_true, Bool.false_eq_true, if_false, Except.ok.injEq] at hfound
        subst hfound
        exact h1 n hm
    · simp [h] at hfound

/-- C15 (counterexample): with the filters `A`, `D` and `C` on `A` added, adding
a filter named `C` on the other parent `D` throws although no selection named
`C` exists under `D`, and `analysis["A/C"]` throws although the selection with
full path `A/C` was added. -/
theorem same_name_other_parent_rejected :
    sample_CA.get_previous = some sample_A ∧ sample_CD.get_previous = some sample_D ∧
    sample_CA.get_name = sample_CD.get_name ∧
    sample_analysis.list_selection_paths = ["A", "D", "C"] ∧
    (sample_analysis.add_selection sample_CD).2 = some "selection already exists" ∧
    sample_CA.get_full_path = "A/C" ∧
    (∃ msg, sample_analysis.index "A/C" = Except.error msg) := by
  exact ⟨rfl, rfl, rfl, by decide, by decide, by decide, ⟨"selection does not exist", rfl⟩⟩

end ana

namespace ana

/-- C16: `add_term`, `add_selection` and `add_counter` each throw exactly when
the key of the node (column name, selection path, counter path) is registered;
a call that throws leaves the analysis as it was, and a call that returns has
appended the key to the list, mapped it to the node and left every other key
and the other registries alone. -/
theorem add_throws_iff_registered {W : Type} (a : analysis W) (t : term_node)
    (s : selection W) (c : counter_node) :
    (((a.add_term t).2.isSome = true ↔ a.has_term t.name = true) ∧
      (a.has_term t.name = true →
        (a.add_term t).2 = some "column already exists" ∧ (a.add_term t).1 = a) ∧
      (a.has_term t.name = false →
        (a.add_term t).2 = none ∧
        (a.add_term t).1.list_term_names = a.list_term_names ++ [t.name] ∧
        (a.add_term t).1.m_column_map t.name = some t ∧
        (∀ k, k ≠ t.name → (a.add_term t).1.m_column_map k = a.m_column_map k) ∧
        (a.add_term t).1.m_selection_paths = a.m_selection_paths ∧
        (a.add_term t).1.m_selection_map = a.m_selection_map ∧
        (a.add_term t).1.m_counter_paths = a.m_counter_paths ∧
        (a.add_term t).1.m_counter_map = a.m_counter_map)) ∧
    (((a.add_selection s).2.isSome = true ↔ a.has_selection s.get_path = true) ∧
      (a.has_selection s.get_path = true →
        (a.add_selection s).2 = some "selection already exists" ∧ (a.add_selection s).1 = a) ∧
      (a.has_selection s.get_path = false →
        (a.add_selection s).2 = none ∧
        (a.add_selection s).1.list_selection_paths = a.list_selection_paths ++ [s.get_path] ∧
        (a.add_selection s).1.m_selection_map s.get_path = some s ∧
        (∀ k, k ≠ s.get_path → (a.add_selection s).1.m_selection_map k = a.m_selection_map k) ∧
        (a.add_selection s).1.m_column_names = a.m_column_names ∧
        (a.add_selection s).1.m_column_map = a.m_column_map ∧
        (a.add_selection s).1.m_counter_paths = a.m_counter_paths ∧
        (a.add_selection s).1.m_counter_map = a.m_counter_map)) ∧
    (((a.add_counter c).2.isSome = true ↔ a.has_counter c.path = true) ∧
      (a.has_counter c.path = true →
        (a.add_counter c).2 = some "counter already exists" ∧ (a.add_counter c).1 = a) ∧
      (a.has_counter c.path = false →
        (a.add_counter c).2 = none ∧
        (a.add_counter c).1.list_counter_paths = a.list_counter_paths ++ [c.path] ∧
        (a.add_counter c).1.m_counter_map c.path = some c ∧
        (∀ k, k ≠ c.path → (a.add_counter c).1.m_counter_map k = a.m_counter_map k) ∧
        (a.add_counter c).1.m_column_names = a.m_column_names ∧
        (a.add_counter c).1.m_column_map = a.m_column_map ∧
        (a.add_counter c).1.m_selection_paths = a.m_selection_paths ∧
        (a.add_counter c).1.m_selection_map = a.m_selection_map)) := by
  refine ⟨⟨?_, ?_, ?_⟩, ⟨?_, ?_, ?_⟩, ⟨?_, ?_, ?_⟩⟩
  · unfold analysis.add_term
    by_cases h : a.has_term t.name = true <;> simp [h]
  · intro h
    simp [analysis.add_term, h]
  · intro h
    simp only [analysis.add_term, h, Bool.false_eq_true, if_false, analysis.list_term_names,
      map_assign, if_true, true_and]
    exact ⟨fun k hk => by simp [hk], trivial⟩
  · unfold analysis.add_selection
    by_cases h : a.has_selection s.get_path = true <;> simp [h]
  · intro h
    simp [analysis.add_selection, h]
  · intro h
    simp only [analysis.add_selection, h, Bool.false_eq_true, if_false,
      analysis.list_selection_paths, map_assign, if_true, true_and]
    exact ⟨fun k hk => by simp [hk], trivial⟩
  · unfold analysis.add_counter
    by_cases h : a.has_counter c.path = true <;> simp [h]
  · intro h
    simp [analysis.add_counter, h]
  · intro h
    simp only [analysis.add_counter, h, Bool.false_eq_true, if_false,
      analysis.list_counter_paths, map_assign, if_true, true_and]
    exact ⟨fun k hk => by simp [hk], trivial⟩

/-- Registering a new key keeps a registry's list free of duplicates and equal
to the keys of its map. -/
theorem registry_step {ν : Type} (keys : List String) (map : String → Option ν)
    (key : String) (node : ν) (hnd : keys.Nodup) (hkeys : ∀ k, k ∈ keys ↔ (map k).isSome = true)
    (hnew : (map key).isSome = false) :
    (keys ++ [key]).Nodup ∧
      ∀ k, k ∈ keys ++ [key] ↔ (map_assign map key node k).isSome = true := by
  have hnot : key ∉ keys := by
    intro h
    have := (hkeys key).mp h
    rw [hnew] at this
    exact Bool.false_ne_true this
  refine ⟨?_, ?_⟩
  · rw [List.nodup_append]
    refine ⟨hnd, List.nodup_singleton key, ?_⟩
    intro x hx hx'
    have : x = key := by simpa using hx'
    subst this
    exact hnot hx
  · intro k
    unfold map_assign
    by_cases hk : k = key
    · subst hk; simp
    · simp [hk, hkeys k]

/-- Every registration call, returning or throwing, keeps the three registries
consistent. -/
theorem registries_step {W : Type} (a : analysis W) (call : add_call W)
    (h : (a.m_column_names.Nodup ∧ ∀ k, k ∈ a.m_column_names ↔ a.has_term k = true) ∧
      (a.m_selection_paths.Nodup ∧ ∀ k, k ∈ a.m_selection_paths ↔ a.has_selection k = true) ∧
      (a.m_counter_paths.Nodup ∧ ∀ k, k ∈ a.m_counter_paths ↔ a.has_counter k = true)) :
    ((a.after_call call).m_column_names.Nodup ∧
      ∀ k, k ∈ (a.after_call call).m_column_names ↔ (a.after_call call).has_term k = true) ∧
    ((a.after_call call).m_selection_paths.Nodup ∧
      ∀ k, k ∈ (a.after_call call).m_selection_paths ↔
        (a.after_call call).has_selection k = true) ∧
    ((a.after_call call).m_counter_paths.Nodup ∧
      ∀ k, k ∈ (a.after_call call).m_counter_paths ↔
        (a.after_call call).has_counter k = true) := by
  obtain ⟨⟨ht1, ht2⟩, ⟨hs1, hs2⟩, ⟨hc1, hc2⟩⟩ := h
  cases call with
  | term node =>
    by_cases hx : a.has_term node.name = true
    · simpa [analysis.after_call, analysis.add_term, hx] using ⟨⟨ht1, ht2⟩, ⟨hs1, hs2⟩, ⟨hc1, hc2⟩⟩
    · have hx' : (a.m_column_map node.name).isSome = false := by
        simpa [analysis.has_term] using hx
      have := registry_step a.m_column_names a.m_column_map node.name node ht1 ht2 hx'
      simp only [analysis.after_call, analysis.add_term, hx, Bool.false_eq_true, if_false]
      exact ⟨this, ⟨hs1, hs2⟩, ⟨hc1, hc2⟩⟩
  | selection node =>
    by_cases hx : a.has_selection node.get_path = true
    · simpa [analysis.after_call, analysis.add_selection, hx] using
        ⟨⟨ht1, ht2⟩, ⟨hs1, hs2⟩, ⟨hc1, hc2⟩⟩
    · have hx' : (a.m_selection_map node.get_path).isSome = false := by
        simpa [analysis.has_selection] using hx
      have := registry_step a.m_selection_paths a.m_selection_map node.get_path node hs1 hs2 hx'
      simp only [analysis.after_call, analysis.add_selection, hx, Bool.false_eq_true, if_false]
      exact ⟨⟨ht1, ht2⟩, this, ⟨hc1, hc2⟩⟩
  | counter node =>
    by_cases hx : a.has_counter node.path = true
    · simpa [analysis.after_call, analysis.add_counter, hx] using
        ⟨⟨ht1, ht2⟩, ⟨hs1, hs2⟩, ⟨hc1, hc2⟩⟩
    · have hx' : (a.m_counter_map node.path).isSome = false := by
        simpa [analysis.has_counter] using hx
      have := registry_step a.m_counter_paths a.m_counter_map node.path node hc1 hc2 hx'
      simp only [analysis.after_call, analysis.add_counter, hx, Bool.false_eq_true, if_false]
      exact ⟨⟨ht1, ht2⟩, ⟨hs1, hs2⟩, this⟩

theorem registries_fold {W : Type} (calls : List (add_call W)) :
    ∀ a : analysis W,
      ((a.m_column_names.Nodup ∧ ∀ k, k ∈ a.m_column_names ↔ a.has_term k = true) ∧
        (a.m_selection_paths.Nodup ∧ ∀ k, k ∈ a.m_selection_paths ↔ a.has_selection k = true) ∧
        (a.m_counter_paths.Nodup ∧ ∀ k, k ∈ a.m_counter_paths ↔ a.has_counter k = true)) →
      (((a.after_calls calls).m_column_names.Nodup ∧
        ∀ k, k ∈ (a.after_calls calls).m_column_names ↔ (a.after_calls calls).has_term k = true) ∧
      ((a.after_calls calls).m_selection_paths.Nodup ∧
        ∀ k, k ∈ (a.after_calls calls).m_selection_paths ↔
          (a.after_calls calls).has_selection k = true) ∧
      ((a.after_calls calls).m_counter_paths.Nodup ∧
        ∀ k, k ∈ (a.after_calls calls).m_counter_paths ↔
          (a.after_calls calls).has_counter k = true)) := by
  induction calls with
  | nil => intro a h; exact h
  | cons call calls ih =>
    intro a h
    exact ih (a.after_call call) (registries_step a call h)

/-- C17: after any sequence of `add_term`, `add_selection` and `add_counter`
calls from an empty analysis, whether they returned or threw, each of
`list_term_names()`, `list_selection_paths()` and `list_counter_paths()` is free
of duplicates and holds exactly the keys of its map. -/
theorem registries_consistent {W : Type} (calls : List (add_call W)) :
    (((analysis.ctor : analysis W).after_calls calls).list_term_names.Nodup ∧
      ∀ k, k ∈ ((analysis.ctor : analysis W).after_calls calls).list_term_names ↔
        (((analysis.ctor : analysis W).after_calls calls).m_column_map k).isSome = true) ∧
    (((analysis.ctor : analysis W).after_calls calls).list_selection_paths.Nodup ∧
      ∀ k, k ∈ ((analysis.ctor : analysis W).after_calls calls).list_selection_paths ↔
        (((analysis.ctor : analysis W).after_calls calls).m_selection_map k).isSome = true) ∧
    (((analysis.ctor : analysis W).after_calls calls).list_counter_paths.Nodup ∧
      ∀ k, k ∈ ((analysis.ctor : analysis W).after_calls calls).list_counter_paths ↔
        (((analysis.ctor : analysis W).after_calls calls).m_counter_map k).isSome = true) := by
  have h0 : ((analysis.ctor : analysis W).m_column_names.Nodup ∧
        ∀ k, k ∈ (analysis.ctor : analysis W).m_column_names ↔
          (analysis.ctor : analysis W).has_term k = true) ∧
      ((analysis.ctor : analysis W).m_selection_paths.Nodup ∧
        ∀ k, k ∈ (analysis.ctor : analysis W).m_selection_paths ↔
          (analysis.ctor : analysis W).has_selection k = true) ∧
      ((analysis.ctor : analysis W).m_counter_paths.Nodup ∧
        ∀ k, k ∈ (analysis.ctor : analysis W).m_counter_paths ↔
          (analysis.ctor : analysis W).has_counter k = true) := by
    simp [analysis.ctor, analysis.has_term, analysis.has_selection, analysis.has_counter]
  exact registries_fold calls analysis.ctor h0

theorem analyze_n_run {W : Type} (x : analysis W) :
    x.analyze.n_run = x.n_run + (if x.m_analyzed then 0 else 1) := by
  cases h : x.m_analyzed <;>
    simp [analysis.analyze, h, analysis.run_processors, analysis.clear_counters]

theorem interface_analyze_n_pass (x : interface.analysis) :
    x.analyze.n_pass = x.n_pass + (if x.m_analyzed then 0 else 1) ∧ x.analyze.m_analyzed = true := by
  cases h : x.m_analyzed <;> simp [interface.analysis.analyze, h]

end ana

namespace ana

theorem analyze_of_analyzed {W : Type} (a : analysis W) (h : a.m_analyzed = true) :
    a.analyze = a := by
  cases a
  simp only at h
  simp [analysis.analyze, h]

namespace delayed

theorem delayed_merge_loop_spec {R : Type} (merge : R → R → R) (others : List (slot R)) :
    ∀ model : R,
      merge_loop merge model others = (folded merge model others, others.map marked) := by
  induction others with
  | nil => intro model; rfl
  | cons s rest ih =>
    intro model
    cases hs : s.m_merged <;>
      simp [merge_loop, folded, marked, hs, ih]

theorem folded_settled {R : Type} (merge : R → R → R) (others : List (slot R))
    (h : ∀ s ∈ others, s.m_merged = true) :
    ∀ model : R, folded merge model others = model := by
  induction others with
  | nil => intro model; rfl
  | cons s rest ih =>
    intro model
    have hs := h s (List.mem_cons_self _ _)
    have := ih (fun x hx => h x (List.mem_cons_of_mem _ hx)) model
    simpa [folded, hs] using this

theorem marked_settled {R : Type} (others : List (slot R))
    (h : ∀ s ∈ others, s.m_merged = true) : others.map marked = others := by
  induction others with
  | nil => rfl
  | cons s rest ih =>
    have hs := h s (List.mem_cons_self _ _)
    rw [List.map_cons, ih (fun x hx => h x (List.mem_cons_of_mem _ hx))]
    congr 1
    cases s
    simp only at hs
    simp [marked, hs]

theorem folded_fresh {R : Type} (merge : R → R → R) (others : List (slot R))
    (h : ∀ s ∈ others, s.m_merged = false) :
    ∀ model : R, folded merge model others = (others.map slot.m_state).foldl merge model := by
  induction others with
  | nil => intro model; rfl
  | cons s rest ih =>
    intro model
    have hs := h s (List.mem_cons_self _ _)
    have := ih (fun x hx => h x (List.mem_cons_of_mem _ hx)) (merge model s.m_state)
    simpa [folded, hs] using this

theorem result_spec {R W : Type} (merge : R → R → R) (process : List (slot R) → List (slot R))
    (a : analysis W) (slots : List (slot R)) (model : slot R) (others : List (slot R))
    (hpass : (if a.m_analyzed then slots else process slots) = model :: others) :
    result merge process a slots =
      some (folded merge model.m_state others, a.analyze,
        ⟨folded merge model.m_state others, model.m_merged, model.n_given⟩ ::
          others.map marked) := by
  unfold result
  simp only [hpass, merge_results, delayed_merge_loop_spec]

theorem delayed_result_analyzes {R W : Type} (merge : R → R → R)
    (process : List (slot R) → List (slot R)) (a : analysis W) (slots : List (slot R)) :
    ∀ v a' s', result merge process a slots = some (v, a', s') → a' = a.analyze := by
  intro v a' s' h
  unfold result at h
  cases hm : merge_results merge (if a.m_analyzed then slots else process slots) with
  | none => simp [hm] at h
  | some l =>
    cases l with
    | nil => simp [hm] at h
    | cons m o =>
      simp only [hm, Option.some.injEq, Prod.mk.injEq] at h
      exact h.2.1.symm

theorem delayed_results_settled {R W : Type} (merge : R → R → R)
    (process : List (slot R) → List (slot R)) (a : analysis W) (ha : a.m_analyzed = true)
    (model : slot R) (others : List (slot R)) (h : ∀ s ∈ others, s.m_merged = true) :
    ∀ k, results merge process k a (model :: others) =
      some (List.replicate k model.m_state, a, model :: others) := by
  intro k
  induction k with
  | zero => rfl
  | succ k ih =>
    have hr := result_spec merge process a (model :: others) model others (by simp [ha])
    rw [folded_settled merge others h, marked_settled others h, analyze_of_analyzed a ha] at hr
    simp only [results, hr, ih, List.replicate_succ]

end delayed

namespace lazy

theorem lazy_result_analyzes {R : Type} (merge : List R → R)
    (process : List (slot R) → List (slot R)) (df : interface.analysis)
    (slots : List (slot R)) :
    ∀ v df' s', result merge process df slots = some (v, df', s') → df' = df.analyze := by
  intro v df' s' h
  unfold result at h
  cases hm : merge_results merge (if df.m_analyzed then slots else process slots) with
  | none => simp [hm] at h
  | some l =>
    cases l with
    | nil => simp [hm] at h
    | cons m o =>
      simp only [hm, Option.some.injEq, Prod.mk.injEq] at h
      exact h.2.1.symm

theorem lazy_results_settled {R : Type} (merge : List R → R)
    (process : List (slot R) → List (slot R)) (df : interface.analysis)
    (hdf : df.m_analyzed = true) (model : slot R) (others : List (slot R))
    (h : concurrency (model :: others) ≤ 1 ∨ model.m_merged = true) :
    ∀ k, results merge process k df (model :: others) =
      some (List.replicate k model.m_result, df, model :: others) := by
  have hm : merge_results merge (model :: others) = some (model :: others) := by
    unfold merge_results
    rcases h with h | h
    · have : ¬ concurrency (model :: others) > 1 := by omega
      simp [this]
    · simp [h]
  have hr : result merge process df (model :: others) =
      some (model.m_result, df, model :: others) := by
    have hdf' : df.analyze = df := by simp [interface.analysis.analyze, hdf]
    unfold result
    simp only [hdf, if_true, hm, hdf', slot.get_result]
  intro k
  induction k with
  | zero => rfl
  | succ k ih => simp only [results, hr, ih, List.replicate_succ]

end lazy

/-- C18: `analyze()` runs the dataset pass only when `m_analyzed` is false and
leaves the flag set, so two consecutive calls run the pass once; `result()`
goes through `analyze()`; `book` (`ana/analysis.h`), `book_selection` and
`book_selections` (`interface/analysis.h`) clear the flag, so the next
`analyze()` runs the pass again. -/
theorem analyze_runs_once {W R : Type} (a : analysis W) (b : interface.analysis)
    (nd : counter_node) (cnt : Nat) (cnts : List Nat)
    (merge2 : R → R → R) (merge : List R → R)
    (process : List (delayed.slot R) → List (delayed.slot R))
    (process' : List (lazy.slot R) → List (lazy.slot R))
    (slots : List (delayed.slot R)) (slots' : List (lazy.slot R)) :
    (a.analyze.m_analyzed = true ∧
      a.analyze.n_run = a.n_run + (if a.m_analyzed then 0 else 1) ∧
      a.analyze.analyze.n_run = a.analyze.n_run ∧
      a.reset.analyze.analyze.n_run = a.n_run + 1 ∧
      (a.analyze.book nd).1.m_analyzed = false ∧
      (a.analyze.book nd).1.analyze.n_run = a.analyze.n_run + 1 ∧
      (∀ v a' s', delayed.result merge2 process a slots = some (v, a', s') → a' = a.analyze)) ∧
    (b.analyze.m_analyzed = true ∧
      b.analyze.n_pass = b.n_pass + (if b.m_analyzed then 0 else 1) ∧
      b.analyze.analyze = b.analyze ∧
      b.reset.analyze.analyze.n_pass = b.n_pass + 1 ∧
      (b.analyze.book_selection cnt).m_analyzed = false ∧
      (b.analyze.book_selection cnt).analyze.n_pass = b.analyze.n_pass + 1 ∧
      (b.analyze.book_selections cnts).m_analyzed = false ∧
      (b.analyze.book_selections cnts).analyze.n_pass = b.analyze.n_pass + 1 ∧
      (∀ v b' s', lazy.result merge process' b slots' = some (v, b', s') → b' = b.analyze)) := by
  have hfold : ∀ (l : List Nat) (x : interface.analysis),
      (l.foldl interface.analysis.add_action x).m_analyzed = x.m_analyzed ∧
      (l.foldl interface.analysis.add_action x).n_pass = x.n_pass := by
    intro l
    induction l with
    | nil => intro x; exact ⟨rfl, rfl⟩
    | cons y l ih => intro x; exact ih (x.add_action y)
  have hadd : ∀ x : analysis W, (x.add_counter nd).1.m_analyzed = x.m_analyzed ∧
      (x.add_counter nd).1.n_run = x.n_run := by
    intro x
    by_cases h : x.has_counter nd.path = true <;> simp [analysis.add_counter, h]
  have hbook : (a.analyze.book nd).1.m_analyzed = false ∧
      (a.analyze.book nd).1.n_run = a.analyze.n_run := hadd a.analyze.reset
  refine ⟨⟨rfl, analyze_n_run a, ?_, ?_, hbook.1, ?_, delayed.delayed_result_analyzes merge2 process a slots⟩,
    ⟨?_, ?_, ?_, ?_, rfl, ?_, ?_, ?_, lazy.lazy_result_analyzes merge process' b slots'⟩⟩
  · rw [analyze_n_run a.analyze]
    have : a.analyze.m_analyzed = true := rfl
    simp [this]
  · rw [analyze_n_run a.reset.analyze, analyze_n_run a.reset]
    have h1 : a.reset.analyze.m_analyzed = true := rfl
    have h2 : a.reset.m_analyzed = false := rfl
    have h3 : a.reset.n_run = a.n_run := rfl
    simp [h1, h2, h3]
  · rw [analyze_n_run, hbook.1, hbook.2]
    simp
  · exact (interface_analyze_n_pass b).2
  · exact (interface_analyze_n_pass b).1
  · have h := (interface_analyze_n_pass b).2
    show (if b.analyze.m_analyzed then b.analyze else _) = b.analyze
    rw [h]
    rfl
  · rw [(interface_analyze_n_pass b.reset.analyze).1, (interface_analyze_n_pass b.reset).1,
      (interface_analyze_n_pass b.reset).2]
    have h2 : b.reset.m_analyzed = false := rfl
    have h3 : b.reset.n_pass = b.n_pass := rfl
    simp [h2, h3]
  · rw [(interface_analyze_n_pass (b.analyze.book_selection cnt)).1]
    have h1 : (b.analyze.book_selection cnt).m_analyzed = false := rfl
    have h2 : (b.analyze.book_selection cnt).n_pass = b.analyze.n_pass := rfl
    simp [h1, h2]
  · exact (hfold cnts b.analyze.reset).1
  · have h1 : (b.analyze.book_selections cnts).m_analyzed = false :=
      (hfold cnts b.analyze.reset).1
    have h2 : (b.analyze.book_selections cnts).n_pass = b.analyze.n_pass :=
      (hfold cnts b.analyze.reset).2
    rw [(interface_analyze_n_pass (b.analyze.book_selections cnts)).1, h1, h2]
    simp

/-- C19: `result()` of a counter node returns the state of the model, slot 0,
after the results of the other slots were merged in, in slot order, and any
number of consecutive `result()` calls return that same value.  In
`ana/delayed.h` every other slot not yet merged is handed to `merge` of the
model once and is flagged afterwards; in `interface/lazy.h` the results of all
slots are handed to `merge` once and the model is flagged.  With a single slot
nothing is merged and the result of slot 0 is returned. -/
theorem result_merges_once {R W : Type} (merge2 : R → R → R) (merge : List R → R)
    (process : List (delayed.slot R) → List (delayed.slot R))
    (process' : List (lazy.slot R) → List (lazy.slot R))
    (a : analysis W) (df : interface.analysis)
    (slots : List (delayed.slot R)) (model : delayed.slot R) (others : List (delayed.slot R))
    (slots' : List (lazy.slot R)) (model' : lazy.slot R) (others' : List (lazy.slot R))
    (k : Nat)
    (hpass : (if a.m_analyzed then slots else process slots) = model :: others)
    (hpass' : (if df.m_analyzed then slots' else process' slots') = model' :: others')
    (hN : others'.length + 1 < dataset.UINT_MOD) :
    (delayed.results merge2 process (k + 1) a slots =
        some (List.replicate (k + 1) (delayed.folded merge2 model.m_state others), a.analyze,
          ⟨delayed.folded merge2 model.m_state others, model.m_merged, model.n_given⟩ ::
            others.map delayed.marked) ∧
      ((∀ s ∈ others, s.m_merged = false) →
        delayed.folded merge2 model.m_state others =
          (others.map delayed.slot.m_state).foldl merge2 model.m_state) ∧
      (∀ s ∈ others, (delayed.marked s).m_merged = true ∧
        (delayed.marked s).n_given ≤ s.n_given + 1) ∧
      (others = [] → delayed.folded merge2 model.m_state others = model.m_state)) ∧
    ((others' ≠ [] → model'.m_merged = false →
        lazy.results merge process' (k + 1) df slots' =
          some (List.replicate (k + 1)
              (merge (model'.m_result :: others'.map lazy.slot.m_result)), df.analyze,
            ⟨merge (model'.m_result :: others'.map lazy.slot.m_result), true,
              model'.n_merge + 1⟩ :: others')) ∧
      ((others' = [] ∨ model'.m_merged = true) →
        lazy.results merge process' (k + 1) df slots' =
          some (List.replicate (k + 1) model'.m_result, df.analyze, model' :: others'))) := by
  have hda : a.analyze.m_analyzed = true := rfl
  have hdf : df.analyze.m_analyzed = true := (interface_analyze_n_pass df).2
  have hconc : lazy.concurrency (model' :: others') = others'.length + 1 := by
    unfold lazy.concurrency
    rw [List.length_cons, Nat.mod_eq_of_lt hN]
  refine ⟨⟨?_, ?_, ?_, ?_⟩, ⟨?_, ?_⟩⟩
  · have hr := delayed.result_spec merge2 process a slots model others hpass
    have hall : ∀ s ∈ others.map delayed.marked, s.m_merged = true := by
      intro s hs
      obtain ⟨x, _, rfl⟩ := List.mem_map.mp hs
      rfl
    have hs := delayed.delayed_results_settled merge2 process a.analyze hda
      ⟨delayed.folded merge2 model.m_state others, model.m_merged, model.n_given⟩
      (others.map delayed.marked) hall k
    simp only [delayed.results, hr, hs, List.replicate_succ]
  · intro hun
    exact delayed.folded_fresh merge2 others hun model.m_state
  · intro s _
    refine ⟨rfl, ?_⟩
    cases hs : s.m_merged <;> simp [delayed.marked, hs]
  · intro h
    subst h
    rfl
  · intro hne hun
    have hlen : 0 < others'.length := List.length_pos.mpr hne
    have hm : lazy.merge_results merge (model' :: others') =
        some (⟨merge (model'.m_result :: others'.map lazy.slot.m_result), true,
          model'.n_merge + 1⟩ :: others') := by
      unfold lazy.merge_results
      have hgt : lazy.concurrency (model' :: others') > 1 := by omega
      simp only [hgt, hun, decide_True, Bool.not_false, Bool.and_self, if_true, hconc]
      have htake : List.take (others'.length + 1) (model' :: others') = model' :: others' :=
        List.take_of_length_le (by simp)
      rw [htake]
      have hd : others'.length + 1 > 1 := by omega
      simp only [hd, lazy.slot.set_merged_result, decide_True, Bool.and_self, if_true]
      rfl
    have hr : lazy.result merge process' df slots' =
        some (merge (model'.m_result :: others'.map lazy.slot.m_result), df.analyze,
          ⟨merge (model'.m_result :: others'.map lazy.slot.m_result), true,
            model'.n_merge + 1⟩ :: others') := by
      unfold lazy.result
      simp only [hpass', hm, lazy.slot.get_result]
    have hs := lazy.lazy_results_settled merge process' df.analyze hdf
      ⟨merge (model'.m_result :: others'.map lazy.slot.m_result), true, model'.n_merge + 1⟩
      others' (Or.inr rfl) k
    simp only [lazy.results, hr, hs, List.replicate_succ]
  · intro hcase
    have hcase' : lazy.concurrency (model' :: others') ≤ 1 ∨ model'.m_merged = true := by
      rcases hcase with h | h
      · left; rw [hconc, h]; simp
      · right; exact h
    have hm : lazy.merge_results merge (model' :: others') = some (model' :: others') := by
      unfold lazy.merge_results
      rcases hcase' with h | h
      · have : ¬ lazy.concurrency (model' :: others') > 1 := by omega
        simp [this]
      · simp [h]
    have hr : lazy.result merge process' df slots' =
        some (model'.m_result, df.analyze, model' :: others') := by
      unfold lazy.result
      simp only [hpass', hm, lazy.slot.get_result]
    have hs := lazy.lazy_results_settled merge process' df.analyze hdf model' others' hcase' k
    simp only [lazy.results, hr, hs, List.replicate_succ]

/-- Witness of C19: three slots holding 1, 10 and 100, none merged yet, and two
consecutive `result()` calls on a fresh analysis. -/
theorem result_merges_once_witness :
    ((if (analysis.ctor : analysis Int).m_analyzed then sample_delayed_slots
        else id sample_delayed_slots) = ⟨1, false, 0⟩ :: [⟨10, false, 0⟩, ⟨100, false, 0⟩] ∧
      (if interface.analysis.ctor.m_analyzed then sample_lazy_slots
        else id sample_lazy_slots) = ⟨1, false, 0⟩ :: [⟨10, false, 0⟩, ⟨100, false, 0⟩] ∧
      [(⟨10, false, 0⟩ : lazy.slot Nat), ⟨100, false, 0⟩].length + 1 < dataset.UINT_MOD) ∧
    delayed.results (fun x y => x + y) id (1 + 1) (analysis.ctor : analysis Int)
        sample_delayed_slots =
      some (List.replicate (1 + 1)
          (delayed.folded (fun x y => x + y) 1 [⟨10, false, 0⟩, ⟨100, false, 0⟩]),
        (analysis.ctor : analysis Int).analyze,
        ⟨delayed.folded (fun x y => x + y) 1 [⟨10, false, 0⟩, ⟨100, false, 0⟩], false, 0⟩ ::
          [(⟨10, false, 0⟩ : delayed.slot Nat), ⟨100, false, 0⟩].map delayed.marked) ∧
    delayed.folded (fun x y => x + y) 1 [⟨10, false, 0⟩, ⟨100, false, 0⟩] = 111 ∧
    lazy.results List.sum id (1 + 1) interface.analysis.ctor sample_lazy_slots =
      some (List.replicate (1 + 1) 111, interface.analysis.ctor.analyze,
        [⟨111, true, 1⟩, ⟨10, false, 0⟩, ⟨100, false, 0⟩]) :=
  ⟨⟨rfl, rfl, by decide⟩,
    (result_merges_once (fun x y => x + y) List.sum id id (analysis.ctor : analysis Int)
      interface.analysis.ctor sample_delayed_slots ⟨1, false, 0⟩
      [⟨10, false, 0⟩, ⟨100, false, 0⟩] sample_lazy_slots ⟨1, false, 0⟩
      [⟨10, false, 0⟩, ⟨100, false, 0⟩] 1 rfl rfl (by decide)).1.1,
    by decide,
    (result_merges_once (fun x y => x + y) List.sum id id (analysis.ctor : analysis Int)
      interface.analysis.ctor sample_delayed_slots ⟨1, false, 0⟩
      [⟨10, false, 0⟩, ⟨100, false, 0⟩] sample_lazy_slots ⟨1, false, 0⟩
      [⟨10, false, 0⟩, ⟨100, false, 0⟩] 1 rfl rfl (by decide)).2.1 (by simp) rfl⟩

end ana

theorem Columnar.merge_loop_eq {T : Type} (results : List (List T)) :
    ∀ merged : List T,
      results.foldl (fun merged result => merged ++ result) merged = merged ++ results.flatten := by
  induction results with
  | nil => intro merged; simp
  | cons r rs ih => intro merged; simp [ih]

theorem Columnar.fills_eq {T W : Type} (rows : List (T × W)) :
    ∀ c : Columnar T, (c.fills rows).result = c.result ++ rows.map Prod.fst := by
  induction rows with
  | nil => intro c; simp [Columnar.fills]
  | cons row rows ih =>
    intro c
    have hstep : c.fills (row :: rows) = (c.fill row.1 row.2).fills rows := rfl
    rw [hstep, ih (c.fill row.1 row.2)]
    simp [Columnar.fill, Columnar.result]

/-- C20: `Columnar<T>::merge` returns the concatenation of the per-slot results
in slot order, so its length is the sum of their lengths and its multiset of
values is the sum of their multisets; pieces that together hold 0..99 merge to
the multiset 0..99.  `fill` appends the observed value once per call, whatever
the weight. -/
theorem Columnar.merge_concatenates {T W : Type} (results : List (List T)) (c : Columnar T)
    (x : T) (rows : List (T × W)) :
    Columnar.merge results = results.flatten ∧
    (Columnar.merge results).length = (results.map List.length).sum ∧
    Multiset.ofList (Columnar.merge results) = (results.map Multiset.ofList).sum ∧
    (∀ pieces : List (List Nat),
      (pieces.map Multiset.ofList).sum = Multiset.range 100 →
        Multiset.ofList (Columnar.merge pieces) = Multiset.range 100) ∧
    Columnar.merge sample_pieces = List.range 100 ∧
    (∀ w w' : W, (c.fill x w).result = c.result ++ [x] ∧ c.fill x w = c.fill x w') ∧
    (c.fills rows).result = c.result ++ rows.map Prod.fst := by
  have hflat : ∀ rs : List (List T), Columnar.merge rs = rs.flatten := by
    intro rs
    unfold Columnar.merge
    rw [Columnar.merge_loop_eq]
    simp
  have hms : ∀ {α : Type} (rs : List (List α)),
      Multiset.ofList rs.flatten = (rs.map Multiset.ofList).sum := by
    intro α rs
    induction rs with
    | nil => simp
    | cons r rs ih =>
      rw [List.flatten_cons, List.map_cons, List.sum_cons, ← ih, Multiset.coe_add]
  have hflatN : ∀ rs : List (List Nat), Columnar.merge rs = rs.flatten := by
    intro rs
    unfold Columnar.merge
    rw [Columnar.merge_loop_eq]
    simp
  refine ⟨hflat results, ?_, ?_, ?_, by decide, ?_, Columnar.fills_eq rows c⟩
  · rw [hflat, List.length_flatten]
  · rw [hflat, hms]
  · intro pieces h
    rw [hflatN, hms, h]
  · intro w w'
    exact ⟨rfl, rfl⟩

namespace ana

namespace dataset

/-- C24: on a partition whose `fixed` flag is set, `merge(K)` and `truncate(L)`
return at once for every `K` and `L` and leave the ranges and the flag as they
are; `truncate(L)` with `L < 0` leaves any partition as it is. -/
theorem fixed_is_untouched (p : partition) :
    (p.fixed = true → ∀ K : Nat, partition.merge K p = some p) ∧
    (p.fixed = true → ∀ L : Int, partition.truncate L p = p) ∧
    (∀ L : Int, L < 0 → partition.truncate L p = p) := by
  refine ⟨?_, ?_, ?_⟩
  · intro hf K
    simp [partition.merge, hf]
  · intro hf L
    simp [partition.truncate, hf]
  · intro L hL
    unfold partition.truncate
    by_cases hf : p.fixed = true
    · simp [hf]
    · simp [hf, hL]

/-- C25 (evaluation at the failing input): `partition(10, 1)` merged with
`merge(3)` holds the three ranges `[0,4)`, `[4,7)`, `[7,10)` under the slots 0, 4
and 7, the slots of the first range of each group: two of them are not below
3. -/
theorem merged_slots_exceed_count :
    ∃ p p', partition.ctor 10 1 = some p ∧ partition.merge 3 p = some p' ∧
      p'.parts = [⟨0, 0, 4⟩, ⟨4, 4, 7⟩, ⟨7, 7, 10⟩] ∧ p'.parts.length = 3 ∧
      ¬ ∀ r ∈ p'.parts, r.slot < p'.parts.length :=
  ⟨⟨false, (List.range 10).map (fun i => ⟨i, i, i + 1⟩)⟩,
    ⟨false, [⟨0, 0, 4⟩, ⟨4, 4, 7⟩, ⟨7, 7, 10⟩]⟩, by decide, by decide, rfl, rfl, by decide⟩

theorem ctor_loop_more_fuel (M : Nat) :
    ∀ (fuel remaining begin islot : Nat) (ps : List range),
      partition.ctor_loop M fuel remaining begin islot = some ps →
      partition.ctor_loop M (fuel + 1) remaining begin islot = some ps := by
  intro fuel
  induction fuel with
  | zero => intro remaining begin islot ps h; simp [partition.ctor_loop] at h
  | succ fuel ih =>
    intro remaining begin islot ps h
    unfold partition.ctor_loop at h ⊢
    by_cases h0 : remaining = 0
    · simpa [h0] using h
    · simp only [h0, if_false] at h ⊢
      cases hrec : partition.ctor_loop M fuel (remaining - min remaining M)
          ((begin + min remaining M) % ULL_MOD) ((islot + 1) % UINT_MOD) with
      | none => rw [hrec] at h; simp at h
      | some rest =>
        rw [hrec] at h
        rw [ih _ _ _ rest hrec]
        exact h

theorem ctor_loop_any_fuel (M : Nat) (remaining begin islot : Nat) (ps : List range)
    (fuel : Nat) (h : partition.ctor_loop M fuel remaining begin islot = some ps) :
    ∀ extra : Nat, partition.ctor_loop M (fuel + extra) remaining begin islot = some ps := by
  intro extra
  induction extra with
  | zero => exact h
  | succ extra ih => exact ctor_loop_more_fuel M (fuel + extra) remaining begin islot ps ih

theorem ctor_loop_ends (M : Nat) (hM : 1 ≤ M) :
    ∀ (fuel remaining begin islot : Nat), remaining < fuel →
      ∃ ps, partition.ctor_loop M fuel remaining begin islot = some ps := by
  intro fuel
  induction fuel with
  | zero => intro remaining begin islot h; omega
  | succ fuel ih =>
    intro remaining begin islot h
    unfold partition.ctor_loop
    by_cases h0 : remaining = 0
    · exact ⟨[], by simp [h0]⟩
    · simp only [h0, if_false]
      obtain ⟨rest, hrest⟩ := ih (remaining - min remaining M)
        ((begin + min remaining M) % ULL_MOD) ((islot + 1) % UINT_MOD) (by omega)
      exact ⟨_, by rw [hrest]; rfl⟩

theorem ctor_loop_stuck : ∀ (fuel remaining begin islot : Nat), remaining ≠ 0 →
    partition.ctor_loop 0 fuel remaining begin islot = none := by
  intro fuel
  induction fuel with
  | zero => intro remaining begin islot _; rfl
  | succ fuel ih =>
    intro remaining begin islot h
    unfold partition.ctor_loop
    simp only [h, if_false, Nat.min_zero, Nat.sub_zero, Nat.add_zero]
    rw [ih remaining _ _ h]
    rfl

/-- C26: for every entry count `E` and every cap `M ≥ 1` the loop of the
constructor ends: it returns with fuel `E + 1` and gives the same ranges with
any larger fuel, because an iteration leaves `remaining` strictly smaller.  For
`E = 0` the partition is empty for every `M`.  (With `M = 0` and `E > 0` the loop
does not end, whatever the fuel.) -/
theorem ctor_terminates (E M : Nat) :
    (1 ≤ M → ∃ p, partition.ctor E M = some p ∧ p.fixed = false ∧
      ∀ extra : Nat, partition.ctor_loop M (E + 1 + extra) E 0 0 = some p.parts) ∧
    (1 ≤ M → ∀ remaining : Nat, remaining ≠ 0 →
      remaining - min remaining M < remaining ∧
      ∀ fuel begin islot : Nat,
        partition.ctor_loop M (fuel + 1) remaining begin islot =
          (partition.ctor_loop M fuel (remaining - min remaining M)
            ((begin + min remaining M) % ULL_MOD) ((islot + 1) % UINT_MOD)).map
            (fun rest => range.mk islot begin ((begin + min remaining M) % ULL_MOD) :: rest)) ∧
    partition.ctor 0 M = some ⟨false, []⟩ ∧
    (M = 0 → E ≠ 0 → ∀ fuel : Nat, partition.ctor_loop M fuel E 0 0 = none) := by
  refine ⟨?_, ?_, ?_, ?_⟩
  · intro hM
    obtain ⟨ps, hps⟩ := ctor_loop_ends M hM (E + 1) E 0 0 (by omega)
    refine ⟨⟨false, ps⟩, by simp [partition.ctor, hps], rfl, ?_⟩
    exact ctor_loop_any_fuel M E 0 0 ps (E + 1) hps
  · intro hM remaining h0
    refine ⟨by omega, ?_⟩
    intro fuel begin islot
    simp [partition.ctor_loop, h0]
  · simp [partition.ctor, partition.ctor_loop]
  · intro hM hE fuel
    subst hM
    exact ctor_loop_stuck fuel E 0 0 hE

/-- C27: on a non-fixed partition with contiguous ranges (the empty one
included) `merge(K)` with `K ≥ 1` completes: `group_parts` returns its groups
(no division by zero, no slice past the list), every group is non-empty, and
`sum_parts` of every group returns, so no adjacency assertion of `operator+`
fails. -/
theorem merge_is_total (p : partition) (K : Nat) (hf : p.fixed = false) (hK : 1 ≤ K)
    (hc : contiguous p.parts) :
    ∃ groups merged, partition.group_parts p.parts K = some groups ∧
      groups.flatten = p.parts ∧
      (∀ g ∈ groups, g ≠ []) ∧
      (∀ g ∈ groups, ∃ r, partition.sum_parts g = some r) ∧
      partition.merge_loop groups = some merged.parts ∧
      partition.merge K p = some merged := by
  obtain ⟨gs, hgs, hj, hne, hm⟩ := merge_total p K hf hK hc
  have hgc : ∀ g ∈ gs, contiguous g := by
    have hnil : [] ∉ gs := fun h => hne [] h rfl
    have := (List.chain'_flatten hnil).mp (show List.Chain' _ gs.flatten by rw [hj]; exact hc)
    exact this.1
  obtain ⟨e, he⟩ := chain_from_of_contiguous p.parts hc
  rw [← hj] at he
  obtain ⟨hml, _, _⟩ := merge_loop_spec gs hne e he
  exact ⟨gs, ⟨false, gs.map span⟩, hgs, hj, hne,
    fun g hg => ⟨span g, sum_parts_spec g (hne g hg) (hgc g hg)⟩, hml, hm⟩

theorem sample_partition_contiguous : contiguous sample_partition.parts := by
  simp [contiguous, sample_partition]

/-- Witness of C27 at the partition `[0,1), [1,2), [2,3)` and `K = 2`. -/
theorem merge_is_total_witness :
    (sample_partition.fixed = false ∧ 1 ≤ 2 ∧ contiguous sample_partition.parts) ∧
    ∃ groups merged, partition.group_parts sample_partition.parts 2 = some groups ∧
      groups.flatten = sample_partition.parts ∧
      (∀ g ∈ groups, g ≠ []) ∧
      (∀ g ∈ groups, ∃ r, partition.sum_parts g = some r) ∧
      partition.merge_loop groups = some merged.parts ∧
      partition.merge 2 sample_partition = some merged :=
  ⟨⟨rfl, by decide, sample_partition_contiguous⟩,
    merge_is_total sample_partition 2 rfl (by decide) sample_partition_contiguous⟩

/-- C28 (evaluation at the failing input): `truncate(0)` of `partition(3, 1)`
holds the single range `[0,0)`, whose `end` is not above its `begin`, so the
assertion of `range::entries()` fails on it. -/
theorem truncate_zero_empty_range :
    ∃ p, partition.ctor 3 1 = some p ∧
      (partition.truncate 0 p).parts = [⟨0, 0, 0⟩] ∧
      ¬ ∀ r ∈ (partition.truncate 0 p).parts, r.end_ > r.begin ∧
      (range.mk 0 0 0).entries = none :=
  ⟨⟨false, [⟨0, 0, 1⟩, ⟨1, 1, 2⟩, ⟨2, 2, 3⟩]⟩, by decide, by decide, by decide⟩

end dataset

end ana

namespace ana

theorem analyze_after_pass {W : Type} (a : analysis W) (h : a.m_analyzed = false) :
    a.analyze = ⟨true, a.m_column_names, a.m_column_map, a.m_selection_paths,
      a.m_selection_map, [], fun _ => none, a.n_run + 1⟩ := by
  simp [analysis.analyze, h, analysis.run_processors, analysis.clear_counters]

/-- C30: a call of `analyze()` that runs the pass leaves the counter registry
empty (`list_counter_paths()` empty, `has_counter(p)` false for every `p`) and
the column and selection registries as they were; booking any counter afterwards,
also one whose path was used before, throws nothing, and the pass that the
booking triggers merges that counter only. -/
theorem analyze_clears_counters {W : Type} (a : analysis W) (nd : counter_node)
    (h : a.m_analyzed = false) :
    a.analyze.list_counter_paths = [] ∧
    (∀ p, a.analyze.has_counter p = false) ∧
    a.analyze.list_term_names = a.list_term_names ∧
    a.analyze.m_column_map = a.m_column_map ∧
    a.analyze.list_selection_paths = a.list_selection_paths ∧
    a.analyze.m_selection_map = a.m_selection_map ∧
    (a.analyze.book nd).2 = none ∧
    (a.analyze.book nd).1.list_counter_paths = [nd.path] ∧
    (a.analyze.book nd).1.m_analyzed = false ∧
    (a.analyze.book nd).1.merged_by_analyze = [nd] ∧
    (a.analyze.book nd).1.analyze.n_run = a.n_run + 2 := by
  rw [analyze_after_pass a h]
  refine ⟨rfl, fun p => rfl, rfl, rfl, rfl, rfl, ?_, ?_, ?_, ?_, ?_⟩
  · simp [analysis.book, analysis.reset, analysis.add_counter, analysis.has_counter]
  · simp [analysis.book, analysis.reset, analysis.add_counter, analysis.has_counter,
      analysis.list_counter_paths]
  · simp [analysis.book, analysis.reset, analysis.add_counter, analysis.has_counter]
  · simp [analysis.book, analysis.reset, analysis.add_counter, analysis.has_counter,
      analysis.merged_by_analyze, analysis.merge_results, analysis.run_processors, map_assign]
  · simp [analysis.book, analysis.reset, analysis.add_counter, analysis.has_counter,
      analysis.analyze, analysis.run_processors, analysis.clear_counters]

/-- Witness of C30: the sample analysis with the counter `c` booked; after the
pass a counter with the path `c` is booked again. -/
theorem analyze_clears_counters_witness :
    sample_booked.m_analyzed = false ∧
    sample_booked.list_counter_paths = ["c"] ∧
    sample_booked.analyze.list_counter_paths = [] ∧
    (∀ p, sample_booked.analyze.has_counter p = false) ∧
    sample_booked.analyze.list_term_names = sample_booked.list_term_names ∧
    sample_booked.analyze.m_column_map = sample_booked.m_column_map ∧
    sample_booked.analyze.list_selection_paths = sample_booked.list_selection_paths ∧
    sample_booked.analyze.m_selection_map = sample_booked.m_selection_map ∧
    (sample_booked.analyze.book ⟨"c", 2⟩).2 = none ∧
    (sample_booked.analyze.book ⟨"c", 2⟩).1.list_counter_paths = ["c"] ∧
    (sample_booked.analyze.book ⟨"c", 2⟩).1.m_analyzed = false ∧
    (sample_booked.analyze.book ⟨"c", 2⟩).1.merged_by_analyze = [⟨"c", 2⟩] ∧
    (sample_booked.analyze.book ⟨"c", 2⟩).1.analyze.n_run = sample_booked.n_run + 2 :=
  ⟨rfl, by decide, analyze_clears_counters sample_booked ⟨"c", 2⟩ rfl⟩

theorem select_aggregations_fold {W : Type} (cntrs : List (booked W)) :
    ∀ e : aggregation.experiment W,
      (cntrs.foldl (fun e cntr => e.add_aggregation cntr.address) e).m_aggregations =
        e.m_aggregations ++ cntrs.map booked.address ∧
      (cntrs.foldl (fun e cntr => e.add_aggregation cntr.address) e).m_norm = e.m_norm := by
  induction cntrs with
  | nil => intro e; simp
  | cons c cs ih =>
    intro e
    obtain ⟨h1, h2⟩ := ih (e.add_aggregation c.address)
    constructor
    · rw [List.foldl_cons, h1]
      simp [aggregation.experiment.add_aggregation]
    · rw [List.foldl_cons, h2]
      rfl

/-- The method `select_aggregations` registers every aggregation and returns
each with the scale it came with. -/
theorem select_aggregations_spec {W β : Type} (e : aggregation.experiment W)
    (bkpr_and_cntrs : β × List (booked W)) :
    (e.select_aggregations bkpr_and_cntrs).1 = bkpr_and_cntrs ∧
    (e.select_aggregations bkpr_and_cntrs).2.m_aggregations =
      e.m_aggregations ++ bkpr_and_cntrs.2.map booked.address :=
  ⟨rfl, (select_aggregations_fold bkpr_and_cntrs.2 e).1⟩

theorem book_loop_spec {W : Type} [Mul W] (cntrs : List (booked W)) :
    ∀ e : counter.experiment W,
      (counter.experiment.book_loop e cntrs).1.map (fun c => c.object.m_scale) =
        cntrs.map (fun c => c.object.m_scale * e.m_norm) ∧
      (counter.experiment.book_loop e cntrs).2.m_counters =
        e.m_counters ++ cntrs.map booked.address := by
  induction cntrs with
  | nil => intro e; simp [counter.experiment.book_loop]
  | cons c cs ih =>
    intro e
    obtain ⟨h1, h2⟩ := ih (e.add_counter c.address)
    have hn : (e.add_counter c.address).m_norm = e.m_norm := rfl
    rw [hn] at h1
    constructor
    · show (c.object.apply_scale e.m_norm).m_scale ::
          ((counter.experiment.book_loop (e.add_counter c.address) cs).1.map
            (fun c => c.object.m_scale)) = _
      rw [h1]
      rfl
    · show (counter.experiment.book_loop (e.add_counter c.address) cs).2.m_counters = _
      rw [h2]
      simp [counter.experiment.add_counter]

/-- C21 (evaluation at the failing input): in an experiment of norm 2, two
aggregations booked through `select_aggregations` are both registered but keep
the scale 1, whereas `select_aggregation` gives the same aggregation the scale
`1 * 2`, and so does `book_selections` of `ana/experiment.h` for both. -/
theorem select_aggregations_skips_scale :
    ((aggregation.experiment.ctor (2 : Int)).select_aggregations ((), sample_fresh)).2.m_aggregations
      = [10, 11] ∧
    ((aggregation.experiment.ctor (2 : Int)).select_aggregations ((), sample_fresh)).1.2.map
      (fun c => c.object.m_scale) = [1, 1] ∧
    sample_fresh.map (fun c =>
      ((aggregation.experiment.ctor (2 : Int)).select_aggregation c).1.object.m_scale) = [2, 2] ∧
    ((counter.experiment.mk [] (2 : Int)).book_selections sample_fresh).1.map
      (fun c => c.object.m_scale) = [2, 2] := by
  decide

theorem comma_fold_spec {α ρ σ : Type} (book : α → σ → ρ × σ) (rest : List α) :
    ∀ (agg : α) (df : σ),
      lazy.comma_fold book agg rest df =
        book ((agg :: rest).getLast (List.cons_ne_nil _ _))
          (((agg :: rest).dropLast).foldl (fun df a => (book a df).2) df) := by
  induction rest with
  | nil => intro agg df; rfl
  | cons next rest ih =>
    intro agg df
    rw [lazy.comma_fold, ih next (book agg df).2]
    simp [List.getLast_cons, List.dropLast]

/-- The variadic `book` returns a tuple of one entry for every non-empty pack:
the booking of the last aggregation, made after those of all the others. -/
theorem book_returns_one {α ρ σ : Type} (book : α → σ → ρ × σ) (agg : α) (rest : List α)
    (df : σ) :
    ∃ r df', lazy.book book (agg :: rest) df = some ([r], df') ∧
      (r, df') = book ((agg :: rest).getLast (List.cons_ne_nil _ _))
        (((agg :: rest).dropLast).foldl (fun df a => (book a df).2) df) := by
  refine ⟨_, _, rfl, ?_⟩
  exact comma_fold_spec book rest agg df

/-- C29 (evaluation at the failing input): `book` called with the two
aggregations 1 and 2, where booking `a` returns `a` and records it, books both
in order and returns a tuple with the single entry 2, not the two entries 1 and
2. -/
theorem book_tuple_has_one_entry :
    lazy.book (fun (a : Nat) (df : List Nat) => (a, df ++ [a])) [1, 2] [] = some ([2], [1, 2]) ∧
    lazy.book (fun (a : Nat) (df : List Nat) => (a, df ++ [a])) [1, 2] [] ≠
      some ([1, 2], [1, 2]) ∧
    (∀ tuple df, lazy.book (fun (a : Nat) (df : List Nat) => (a, df ++ [a])) [1, 2] [] =
      some (tuple, df) → tuple.length = 1) := by
  refine ⟨rfl, by decide, ?_⟩
  intro tuple df h
  have h' : some ([2], [1, 2]) = some (tuple, df) := h
  simp only [Option.some.injEq, Prod.mk.injEq] at h'
  rw [← h'.1]
  rfl

end ana

namespace ana

theorem mem_list_all_fold {α : Type} (nodes : List (systematic.resolver α)) :
    ∀ (names : Finset String) (v : String),
      v ∈ nodes.foldl (fun variation_names node =>
        variation_names ∪ node.list_variation_names) names ↔
      v ∈ names ∨ ∃ c ∈ nodes, v ∈ c.list_variation_names := by
  induction nodes with
  | nil => intro names v; simp
  | cons node nodes ih =>
    intro names v
    rw [List.foldl_cons, ih]
    simp only [Finset.mem_union, List.mem_cons, exists_eq_or_imp]
    tauto

theorem set_variations_fold {β : Type} (f : String → β) (l : List String) :
    ∀ syst : lazy.varied β,
      (l.foldl (fun syst var_name => syst.set_variation var_name (f var_name)) syst).m_nominal =
        syst.m_nominal ∧
      (l.foldl (fun syst var_name => syst.set_variation var_name (f var_name))
        syst).m_variation_names = syst.m_variation_names ∪ l.toFinset ∧
      ∀ v, (l.foldl (fun syst var_name => syst.set_variation var_name (f var_name))
        syst).m_variation_map v = if v ∈ l then some (f v) else syst.m_variation_map v := by
  induction l with
  | nil => intro syst; simp
  | cons x xs ih =>
    intro syst
    obtain ⟨h1, h2, h3⟩ := ih (syst.set_variation x (f x))
    refine ⟨?_, ?_, ?_⟩
    · rw [List.foldl_cons, h1]; rfl
    · rw [List.foldl_cons, h2]
      ext v
      simp only [lazy.varied.set_variation, Finset.mem_union, Finset.mem_insert,
        List.mem_toFinset, List.toFinset_cons]
      tauto
    · intro v
      rw [List.foldl_cons, h3 v]
      by_cases hv : v ∈ xs
      · simp [hv]
      · by_cases hx : v = x
        · subst hx
          simp [hv, lazy.varied.set_variation, map_assign]
        · simp [hv, hx, lazy.varied.set_variation, map_assign]

theorem evaluate_column_fields {α β : Type} (evaluate : List α → β)
    (columns : List (systematic.resolver α)) :
    (evaluate_column evaluate columns).m_nominal =
      evaluate (columns.map systematic.resolver.nominal) ∧
    (evaluate_column evaluate columns).m_variation_names = list_all_variation_names columns ∧
    ∀ v, (evaluate_column evaluate columns).m_variation_map v =
      if v ∈ list_all_variation_names columns then
        some (evaluate (columns.map (fun c => c.variation v)))
      else none := by
  obtain ⟨h1, h2, h3⟩ := set_variations_fold
    (fun var_name => evaluate (columns.map (fun c => c.variation var_name)))
    ((list_all_variation_names columns).sort (fun a b => a ≤ b))
    (lazy.varied.ctor (evaluate (columns.map systematic.resolver.nominal)))
  refine ⟨h1, ?_, ?_⟩
  · unfold evaluate_column
    rw [h2]
    simp [lazy.varied.ctor]
  · intro v
    unfold evaluate_column
    rw [h3 v]
    simp [lazy.varied.ctor]

/-- C22: the varied column that `evaluate_column` returns lists exactly the
names of `list_all_variation_names(columns...)`, which is the union of the
arguments' `list_variation_names()`; a nominal-only `lazy` or `delayed`
argument contributes the empty set. -/
theorem evaluated_names_are_union {α β : Type} (evaluate : List α → β)
    (columns : List (systematic.resolver α)) :
    (evaluate_column evaluate columns).list_variation_names =
      list_all_variation_names columns ∧
    (∀ v, v ∈ list_all_variation_names columns ↔
      ∃ c ∈ columns, v ∈ c.list_variation_names) ∧
    (∀ v, (evaluate_column evaluate columns).has_variation v = true ↔
      ∃ c ∈ columns, v ∈ c.list_variation_names) ∧
    (∀ node : α, (systematic.resolver.nominal_only node).list_variation_names = ∅) := by
  have hmem : ∀ v, v ∈ list_all_variation_names columns ↔
      ∃ c ∈ columns, v ∈ c.list_variation_names := by
    intro v
    unfold list_all_variation_names
    rw [mem_list_all_fold]
    simp
  refine ⟨(evaluate_column_fields evaluate columns).2.1, hmem, ?_, fun _ => rfl⟩
  intro v
  unfold lazy.varied.has_variation
  rw [(evaluate_column_fields evaluate columns).2.1, decide_eq_true_iff]
  exact hmem v

/-- C23: variation `v` of the column that `evaluate_column` returns is, for
every `v` among the arguments' variation names, the evaluator applied to the
variation `v` of every argument, its nominal is the evaluator applied to the
nominals, and for any other `v` it falls back to that nominal.  A nominal-only
argument returns itself as `variation(v)` and as `nominal()` and has no
variation. -/
theorem evaluated_variation_is_pointwise {α β : Type} (evaluate : List α → β)
    (columns : List (systematic.resolver α)) :
    (∀ v, v ∈ list_all_variation_names columns →
      (evaluate_column evaluate columns).variation v =
        evaluate (columns.map (fun c => c.variation v))) ∧
    (evaluate_column evaluate columns).nominal =
      evaluate (columns.map systematic.resolver.nominal) ∧
    (∀ v, v ∉ list_all_variation_names columns →
      (evaluate_column evaluate columns).variation v =
        (evaluate_column evaluate columns).nominal) ∧
    (∀ (node : α) (v : String),
      (systematic.resolver.nominal_only node).variation v = node ∧
      (systematic.resolver.nominal_only node).nominal = node ∧
      (systematic.resolver.nominal_only node).has_variation v = false) := by
  obtain ⟨h1, _, h3⟩ := evaluate_column_fields evaluate columns
  refine ⟨?_, h1, ?_, fun _ _ => ⟨rfl, rfl, rfl⟩⟩
  · intro v hv
    unfold lazy.varied.variation
    rw [h3 v]
    simp [hv]
  · intro v hv
    unfold lazy.varied.variation lazy.varied.nominal
    rw [h3 v]
    simp [hv]

end ana
